import Mathlib

/-!
Verification of the site-structure builder and key-page selector of
`src/utils/tree.py` (dio-analyst).

Shallow embedding conventions:
* Python `str` is Lean `String`; character-level helpers (`splitChar`, …)
  model `str.split`, `str.strip` and friends with structural recursion so
  that concrete inputs evaluate.
* Python `float` values (priorities, sort keys, `datetime.timestamp()`)
  are modelled as exact rationals `Rat`; `datetime` values as integer
  epoch seconds `Int` (only ordering and `timestamp()` are used).
* Python `set` of URLs (equality of `TreeNode` is by `url`) is a
  duplicate-free `List String` grown by insert-if-absent; only membership
  and size are observed.
* `urllib.parse.urlparse(u).path` is modelled for `scheme://authority/path`
  URLs, the shape used throughout the module.
-/

namespace DioTree

/-- Split a character list on a separator character; models Python
`s.split(c)` (always returns at least one, possibly empty, piece). -/
def splitChar (c : Char) : List Char → List (List Char)
  | [] => [[]]
  | a :: rest =>
    match splitChar c rest with
    | [] => [[]]
    | g :: gs => if a = c then [] :: g :: gs else (a :: g) :: gs

/-- Models Python `str.rstrip("/")`: drop trailing slashes. -/
def rstripSlash (s : List Char) : List Char :=
  (s.reverse.dropWhile (· = '/')).reverse

/-- Join character-list segments with `/`; models `"/".join(parts)`. -/
def joinSlash : List (List Char) → List Char
  | [] => []
  | [p] => p
  | p :: q :: rest => p ++ '/' :: joinSlash (q :: rest)

/-- Everything after the first `://`, if any; helper for the `urlparse` model. -/
def afterScheme : List Char → Option (List Char)
  | ':' :: '/' :: '/' :: rest => some rest
  | _ :: rest => afterScheme rest
  | [] => none

/-- Models `urllib.parse.urlparse(url).path` for `scheme://authority/path`
URLs (no query/fragment handling; none appear in the analysed call sites):
the part of the URL from the first `/` after the authority. -/
def urlparsePath (url : List Char) : List Char :=
  match afterScheme url with
  | some rest => rest.dropWhile (· ≠ '/')
  | none => url

/-- Models `parse_url_path` (and the textually identical `_get_path_segments`):
`urlparse(url).path` stripped of slashes and split on `/`, empty segments
discarded. -/
def parse_url_path (url : String) : List String :=
  ((splitChar '/' (urlparsePath url.toList)).map (fun cs => String.mk cs)).filter
    (fun s => s ≠ "")

/-- `_get_path_segments` of the source performs the same computation as
`parse_url_path`. -/
def get_path_segments (url : String) : List String :=
  parse_url_path url

/-- Remove every occurrence of a pattern from a character list (fuel-driven);
models Python `s.replace(pat, "")`. -/
def removeAllAux (pat : List Char) : Nat → List Char → List Char
  | _, [] => []
  | 0, s => s
  | fuel + 1, a :: rest =>
    if pat ≠ [] ∧ pat.isPrefixOf (a :: rest) then
      removeAllAux pat fuel ((a :: rest).drop pat.length)
    else a :: removeAllAux pat fuel rest

/-- Models Python `s.replace(pat, "")`. -/
def removeAll (pat s : List Char) : List Char :=
  removeAllAux pat s.length s

/-- The fixed denylisted file-extension list `DENIED_EXTENSIONS` of the source. -/
def DENIED_EXTENSIONS : List String :=
  [".php", ".asp", ".aspx", ".jsp", ".cgi", ".pdf", ".doc", ".docx", ".xls",
   ".xlsx", ".zip", ".rar", ".tar", ".gz", ".jpg", ".jpeg", ".png", ".gif",
   ".bmp", ".svg", ".webp", ".mp4", ".avi", ".mov", ".wmv", ".mp3", ".wav",
   ".ogg", ".css", ".js", ".json", ".xml"]

/-- Models Python `str.lower()` (ASCII case folding via `Char.toLower`). -/
def lowerStr (s : String) : String :=
  String.mk (s.toList.map Char.toLower)

/-- Models Python `str.endswith(suffix)`. -/
def endsWithStr (s suffix : String) : Bool :=
  suffix.toList.isSuffixOf s.toList

/-- `_is_denied_url` of the source, verbatim:
`not any(str(url).split(".")[-1].lower().endswith(extension) for extension in DENIED_EXTENSIONS)`.
(Its docstring says "True if denied"; the computed value is analysed below.) -/
def is_denied_url (url : String) : Bool :=
  !(DENIED_EXTENSIONS.any fun extension =>
      endsWithStr (lowerStr (String.mk ((splitChar '.' url.toList).getLastD []))) extension)

/-- A node of the site tree (`TreeNode` of the source).  `priority` models the
Python float as an exact rational, `lastModified` models the `datetime` as
integer epoch seconds, and `url` holds the URL string as stored; the source's
`url` field is a pydantic `HttpUrl`, whose validation-time normalization is
modelled explicitly where it matters (see `add_page_to_tree_n` /
`pydanticUrlNorm`; elsewhere URLs are already in normal form).  Python
equality/hashing of `TreeNode` is by `url` alone; accordingly the selector's
result set is a set of URL strings. -/
inductive TreeNode where
  | mk (name url : String) (priority : Option Rat) (lastModified : Option Int)
       (children : List TreeNode)

def TreeNode.name : TreeNode → String
  | .mk n _ _ _ _ => n

def TreeNode.url : TreeNode → String
  | .mk _ u _ _ _ => u

def TreeNode.priority : TreeNode → Option Rat
  | .mk _ _ p _ _ => p

def TreeNode.lastModified : TreeNode → Option Int
  | .mk _ _ _ lm _ => lm

def TreeNode.children : TreeNode → List TreeNode
  | .mk _ _ _ _ cs => cs

def TreeNode.setChildren : TreeNode → List TreeNode → TreeNode
  | .mk n u p lm _, cs => .mk n u p lm cs

/-- `TreeNode.is_leaf`: a node with no children. -/
def TreeNode.is_leaf (t : TreeNode) : Bool :=
  t.children.isEmpty

/-- The `validate_last_modified` field validator of `TreeNode`: `None` and the
empty (falsy) string normalize to `none`; a string is parsed with
`datetime.fromisoformat`, any parse failure (`try/except`) normalizing to
`none`; an already-parsed datetime passes through.  The stdlib ISO-8601
parser is a parameter `fromisoformat` of the model (failure = `none`). -/
def validate_last_modified (fromisoformat : String → Option Int) :
    Option (String ⊕ Int) → Option Int
  | none => none
  | some (Sum.inl s) => if s = "" then none else fromisoformat s
  | some (Sum.inr d) => some d

mutual
/-- `TreeNode.iter_nodes`: pre-order traversal, the node itself first. -/
def iter_nodes : TreeNode → List TreeNode
  | .mk n u p lm cs => .mk n u p lm cs :: iterForest cs

def iterForest : List TreeNode → List TreeNode
  | [] => []
  | t :: ts => iter_nodes t ++ iterForest ts
end

/-- `TreeNode.iter_leaves`: the leaves of the pre-order traversal. -/
def iter_leaves (t : TreeNode) : List TreeNode :=
  (iter_nodes t).filter fun n => n.children.isEmpty

/-- `TreeNode.last_changed_node`: Python
`max(dated_nodes, key=lambda x: x.last_modified, default=None)`.
`max` keeps the earliest element among ties (replaces only on strictly
greater), modelled by a left fold over the dated nodes in pre-order. -/
def last_changed_node (t : TreeNode) : Option TreeNode :=
  ((iter_nodes t).filter fun n => n.lastModified.isSome).foldl
    (fun acc n =>
      match acc with
      | none => some n
      | some a => if a.lastModified.getD 0 < n.lastModified.getD 0 then some n else some a)
    none

/-- URL synthesized for a created node:
`f"{str(base_url).rstrip('/')}/{'/'.join(segments[:depth+1])}"`. -/
def synth_url (base_url : String) (segs : List String) : String :=
  String.mk (rstripSlash base_url.toList ++ '/' :: joinSlash (segs.map String.toList))

/-- Replace the first child whose `name` matches `seg` (the one
`add_page_to_tree` found and mutated in place). -/
def replaceChild (seg : String) (c1 : TreeNode) : List TreeNode → List TreeNode
  | [] => []
  | c :: cs => if c.name = seg then c1 :: cs else c :: replaceChild seg c1 cs

/-- `add_page_to_tree` of the source, in functional form.  The Python pair
`(segments, current_depth)` is modelled as `(done, rest)` with
`done = segments[:current_depth]` and `rest = segments[current_depth:]`;
the record's metadata (`page.priority`, `page.last_modified`) is passed
post-validation.  The found-or-created child is updated recursively; all
other children are untouched.  The synthesized `full_url` is stored as the
raw string; the source additionally runs it through the pydantic `HttpUrl`
validator, which `add_page_to_tree_n` below makes explicit (this function is
its identity-normalizer special case, `add_page_to_tree_n_id`). -/
def add_page_to_tree (base_url : String) (pp : Option Rat) (plm : Option Int) :
    TreeNode → List String → List String → TreeNode
  | root, _, [] => root
  | root, done, seg :: rest1 =>
    match root.children.find? (fun c => c.name == seg) with
    | some c =>
      let c1 := add_page_to_tree base_url pp plm c (done ++ [seg]) rest1
      root.setChildren (replaceChild seg c1 root.children)
    | none =>
      let full_url := synth_url base_url (done ++ [seg])
      let node : TreeNode := .mk seg full_url pp plm []
      let c1 := add_page_to_tree base_url pp plm node (done ++ [seg]) rest1
      root.setChildren (root.children ++ [c1])

/-- Follow a path of segment names from a node through `children`, matching
by `name` exactly as `add_page_to_tree` looks children up. -/
def findPath : TreeNode → List String → Option TreeNode
  | t, [] => some t
  | t, seg :: rest =>
    match t.children.find? (fun c => c.name == seg) with
    | some c => findPath c rest
    | none => none

/-- One record of the sitemap sequence (`usp.objects.page.SitemapPage` as the
source consumes it: url, priority, last_modified). -/
structure SitemapPage where
  url : String
  priority : Option Rat
  last_modified : Option Int

/-- `build_site_tree` of the source, with the page sequence (produced by the
external `usp` sitemap fetcher) taken as a parameter. -/
def build_site_tree (url : String) (pages : List SitemapPage) : TreeNode :=
  pages.foldl
    (fun r page =>
      add_page_to_tree url page.priority page.last_modified r [] (parse_url_path page.url))
    (.mk (String.mk
        (removeAll "/".toList (removeAll "https://".toList (removeAll "http://".toList
          url.toList))))
      url none none [])

/-- Python's lexicographic comparison of the 3-tuples produced by
`_get_node_sort_key` (non-strict). -/
def tupleLeb (x y : Rat × Rat × Rat) : Bool :=
  decide (x.1 < y.1) ||
    (decide (x.1 = y.1) &&
      (decide (x.2.1 < y.2.1) ||
        (decide (x.2.1 = y.2.1) && decide (x.2.2 ≤ y.2.2))))

/-- Insert before the first element that should not precede `x`; together
with `insertionSortBy` this models Python's stable `list.sort`. -/
def orderedInsertBy (le : α → α → Bool) (x : α) : List α → List α
  | [] => [x]
  | y :: ys => if le x y then x :: y :: ys else y :: orderedInsertBy le x ys

/-- Stable sort (equal elements keep their original relative order when `le`
is a total preorder), modelling Python's stable `list.sort(key=...)`. -/
def insertionSortBy (le : α → α → Bool) : List α → List α
  | [] => []
  | a :: l => orderedInsertBy le a (insertionSortBy le l)

/-- `_get_node_sort_key` of the source: ascending on
`(-priority_or(0.5), -last_modified_epoch_or(0), depth * 0.01)`; the float
constants `0.5` and `depth * 0.01` are modelled exactly as `mkRat 1 2` and
`mkRat depth 100`. -/
def get_node_sort_key (node : TreeNode) : Rat × Rat × Rat :=
  let priority_score : Rat := node.priority.getD (mkRat 1 2)
  let date_score : Rat :=
    match node.lastModified with
    | some d => (d : Rat)
    | none => 0
  let depth_penalty : Rat := mkRat ((get_path_segments node.url).length : Int) 100
  (-priority_score, -date_score, depth_penalty)

/-- Sort nodes by `_get_node_sort_key`, stably (Python `list.sort(key=...)`). -/
def sortNodes (nodes : List TreeNode) : List TreeNode :=
  insertionSortBy (fun a b => tupleLeb (get_node_sort_key a) (get_node_sort_key b)) nodes

/-- `_sort_by_last_modified` of the source: dated nodes first, stably sorted
by `last_modified` descending, then undated nodes in original order. -/
def sort_by_last_modified (nodes : List TreeNode) : List TreeNode :=
  let with_dates := nodes.filter fun n => n.lastModified.isSome
  let without_dates := nodes.filter fun n => n.lastModified.isNone
  insertionSortBy (fun a b => decide (b.lastModified.getD 0 ≤ a.lastModified.getD 0))
    with_dates ++ without_dates

/-- A Python `set` is modelled as a duplicate-free list (`setInsert` keeps it
so); only membership and size are observed downstream, so the list order is
immaterial.  `setInsert` models `set.add`. -/
def setInsert (u : String) (s : List String) : List String :=
  if u ∈ s then s else s ++ [u]

/-- The candidate-gathering loop of `extract_key_pages` (lines 307–314):
walks `iter_nodes`, breaking when `len(key_pages) > max_result` (note:
`key_pages` is not modified inside this loop), and collects nodes whose
path segments meet `key_segments` and which pass `_is_denied_url`. -/
def gather_candidates (key_segments : List String) (key_pages : List String)
    (max_result : Int) : List TreeNode → List TreeNode
  | [] => []
  | node :: rest =>
    if (key_pages.length : Int) > max_result then []
    else
      if (key_segments.any fun key_segment =>
            (get_path_segments node.url).contains key_segment) && is_denied_url node.url then
        node :: gather_candidates key_segments key_pages max_result rest
      else gather_candidates key_segments key_pages max_result rest

/-- The child-adding loop inside the greedy fill (lines 330–332): each child
added only when the budget is not reached and it passes `_is_denied_url`. -/
def add_children (max_result : Int) (children : List TreeNode)
    (key_pages : List String) : List String :=
  children.foldl
    (fun kp child =>
      if (kp.length : Int) < max_result ∧ is_denied_url child.url = true then
        setInsert child.url kp
      else kp)
    key_pages

/-- What one admitted candidate contributes to `key_pages` (lines 325–332):
its own URL, then — unless it is a leaf — its children sorted by
`_sort_by_last_modified`, each added under the budget/denylist guard. -/
def greedy_added_pages (max_result : Int) (node : TreeNode)
    (key_pages : List String) : List String :=
  if node.children.isEmpty then setInsert node.url key_pages
  else add_children max_result (sort_by_last_modified node.children)
    (setInsert node.url key_pages)

/-- The diverse greedy fill of `extract_key_pages` (lines 316–332) over the
ranked candidate list, threading `(key_pages, used_segments)`.  The third
component is a ghost audit log, absent from the source: the pairs
`(matched key segment, candidate URL)` for exactly the candidates whose URL
the pass admits. -/
def greedy_fill (max_result : Int) (key_segments : List String) :
    List TreeNode → List String → List String →
    List String × List String × List (String × String)
  | [], key_pages, used => (key_pages, used, [])
  | node :: rest, key_pages, used =>
    if (key_pages.length : Int) ≥ max_result then (key_pages, used, [])
    else
      match key_segments.find?
          (fun key_segment => (get_path_segments node.url).contains key_segment) with
      | none => greedy_fill max_result key_segments rest key_pages used
      | some found_key_segment =>
        if found_key_segment ∈ used then
          greedy_fill max_result key_segments rest key_pages used
        else
          let r := greedy_fill max_result key_segments rest
            (greedy_added_pages max_result node key_pages)
            (setInsert found_key_segment used)
          (r.1, r.2.1, (found_key_segment, node.url) :: r.2.2)

/-- The seeding stage of `extract_key_pages` (lines 300–306): the root URL,
then the URL of the last changed node when one exists. -/
def seed_pages (tree : TreeNode) : List String :=
  match last_changed_node tree with
  | some n => setInsert n.url [tree.url]
  | none => [tree.url]

/-- `key_pages` of `extract_key_pages` after the seed, candidate-gathering
and greedy-fill stages (lines 300–332), before the leaf fallback. -/
def pre_fallback_pages (tree : TreeNode) (key_segments : List String)
    (max_result : Int) : List String :=
  let key_pages := seed_pages tree
  let nodes_with_key_segments :=
    gather_candidates key_segments key_pages max_result (iter_nodes tree)
  (greedy_fill max_result key_segments (sortNodes nodes_with_key_segments) key_pages []).1

/-- `extract_key_pages` of the source.  The Python `set` of URLs is a
duplicate-free `List String` (node equality/hashing is by `url`); the
returned `list(key_pages)` is that list (Python's iteration order over the
set is unspecified; only membership and size are claimed).  The final stage
is the leaf fallback of lines 334–337: `key_pages.update(leaf.url for leaf
in leaves[: max_result - len(key_pages)])`. -/
def extract_key_pages (tree : TreeNode) (key_segments : List String)
    (max_result : Int) : List String :=
  let key_pages := pre_fallback_pages tree key_segments max_result
  if (key_pages.length : Int) < max_result then
    let leaves := sortNodes (iter_leaves tree)
    ((leaves.take (max_result - (key_pages.length : Int)).toNat).map TreeNode.url).foldl
      (fun kp u => setInsert u kp) key_pages
  else key_pages

/-! ### Concrete fixtures for counterexamples and witnesses -/

/-- A `.php` page under `/catalog` (a denylisted extension). -/
def phpLeaf : TreeNode := .mk "a.php" "http://x.com/catalog/a.php" none none []

/-- The `/catalog` section node. -/
def catalogNode : TreeNode := .mk "catalog" "http://x.com/catalog" none none [phpLeaf]

/-- A site tree whose only section contains a denylisted page. -/
def siteTree : TreeNode := .mk "x.com" "http://x.com/" none none [catalogNode]

/-- A dated leaf. -/
def freshLeaf : TreeNode := .mk "a" "http://x.com/a" none (some 100) []

/-- An undated leaf. -/
def plainLeaf : TreeNode := .mk "b" "http://x.com/b" none none []

/-- A two-leaf site tree: the dated leaf is also the freshness seed. -/
def smallTree : TreeNode := .mk "x.com" "http://x.com/" none none [freshLeaf, plainLeaf]

/-- An undated node carrying a high sitemap priority. -/
def undatedHighPrio : TreeNode := .mk "u" "http://x.com/u" (some (mkRat 9 10)) none []

/-- A dated node carrying a low sitemap priority. -/
def datedLowPrio : TreeNode := .mk "d" "http://x.com/d" (some (mkRat 1 10)) (some 100) []

/-- An undated node with default priority. -/
def undatedPlain : TreeNode := .mk "u2" "http://x.com/u2" none none []

/-- A dated node with default priority. -/
def datedPlain : TreeNode := .mk "d2" "http://x.com/d2" none (some 100) []

/-! ### Basic lemmas about the set model and the selector stages -/

theorem mem_setInsert_self (u : String) (s : List String) : u ∈ setInsert u s := by
  unfold setInsert
  by_cases h : u ∈ s
  · simp [h]
  · simp [h]

theorem mem_setInsert_of_mem {v : String} (u : String) {s : List String} (h : v ∈ s) :
    v ∈ setInsert u s := by
  unfold setInsert
  by_cases hu : u ∈ s
  · simpa [hu]
  · simp [hu, h]

theorem setInsert_length_le (u : String) (s : List String) :
    (setInsert u s).length ≤ s.length + 1 := by
  unfold setInsert
  by_cases h : u ∈ s <;> simp [h]

theorem length_le_setInsert_length (u : String) (s : List String) :
    s.length ≤ (setInsert u s).length := by
  unfold setInsert
  by_cases h : u ∈ s <;> simp [h]

theorem seed_pages_length_pos (tree : TreeNode) : 1 ≤ (seed_pages tree).length := by
  unfold seed_pages
  cases h : last_changed_node tree with
  | none => simp
  | some n => simpa using length_le_setInsert_length n.url [tree.url]

theorem seed_pages_length_le_two (tree : TreeNode) : (seed_pages tree).length ≤ 2 := by
  unfold seed_pages
  cases h : last_changed_node tree
  · simp
  · simpa using setInsert_length_le _ _

theorem mem_seed_pages_root (tree : TreeNode) : tree.url ∈ seed_pages tree := by
  unfold seed_pages
  cases h : last_changed_node tree
  · simp
  · simpa using mem_setInsert_of_mem _ (by simp)

theorem gather_candidates_of_over (key_segments : List String) (key_pages : List String)
    (max_result : Int) (l : List TreeNode) (h : (key_pages.length : Int) > max_result) :
    gather_candidates key_segments key_pages max_result l = [] := by
  cases l with
  | nil => rfl
  | cons n rest => unfold gather_candidates; simp [h]

/-! ### The claims -/

/-- C1: the claim says a node or child whose URL ends in a denylisted
extension is excluded from the candidate list and from the result.  The code
violates this: `_is_denied_url` compares the last dot-component of the URL
(which never contains a dot) against dot-prefixed extensions, so it returns
`True` for every URL, and the call sites treat `True` as "allowed" (inverting
the function's own docstring).  Evaluated at the failing input: the
`.php` page both passes the filter and lands in the result. -/
theorem C1_code_eval :
    is_denied_url "http://x.com/catalog/a.php" = true ∧
    "http://x.com/catalog/a.php" ∈ extract_key_pages siteTree ["catalog"] 15 := by
  decide

/-- C2, counterexample: calling `extract_key_pages` with `max_result = 0 < 1`
does not raise any error — the source has no `InvalidArgument` check at all —
and returns a result set (here the root singleton). -/
theorem C2_counterexample :
    extract_key_pages siteTree ["catalog"] 0 = ["http://x.com/"] := by
  decide

/-- C2, amended: with `max_result < 1` the function raises nothing and
returns exactly the seed set (root URL plus the freshness seed when one
exists); the gathering, greedy and fallback stages contribute nothing. -/
theorem C2_low_budget_returns_seeds (tree : TreeNode) (key_segments : List String)
    (max_result : Int) (h : max_result < 1) :
    extract_key_pages tree key_segments max_result = seed_pages tree := by
  have h1 := seed_pages_length_pos tree
  have hgt : ((seed_pages tree).length : Int) > max_result := by
    omega
  have hpre : pre_fallback_pages tree key_segments max_result = seed_pages tree := by
    show (greedy_fill max_result key_segments
        (sortNodes (gather_candidates key_segments (seed_pages tree) max_result
          (iter_nodes tree)))
        (seed_pages tree) []).1 = seed_pages tree
    rw [gather_candidates_of_over _ _ _ _ hgt]
    rfl
  show (if ((pre_fallback_pages tree key_segments max_result).length : Int) < max_result
      then _ else pre_fallback_pages tree key_segments max_result) = seed_pages tree
  rw [hpre, if_neg (by omega)]

/-- C2, witness for the amended theorem at a concrete input. -/
theorem C2_low_budget_witness :
    (0 : Int) < 1 ∧
    extract_key_pages smallTree [] 0 = seed_pages smallTree ∧
    seed_pages smallTree = ["http://x.com/", "http://x.com/a"] :=
  ⟨by decide, C2_low_budget_returns_seeds smallTree [] 0 (by decide), by decide⟩

/-! ### Step equations for the greedy fill -/

theorem greedy_fill_cons_over {max_result : Int} {key_segments : List String}
    {node : TreeNode} {rest : List TreeNode} {kp used : List String}
    (h : (kp.length : Int) ≥ max_result) :
    greedy_fill max_result key_segments (node :: rest) kp used = (kp, used, []) := by
  simp only [greedy_fill]
  rw [if_pos h]

theorem greedy_fill_cons_none {max_result : Int} {key_segments : List String}
    {node : TreeNode} {rest : List TreeNode} {kp used : List String}
    (h1 : ¬ (kp.length : Int) ≥ max_result)
    (h2 : key_segments.find?
      (fun key_segment => (get_path_segments node.url).contains key_segment) = none) :
    greedy_fill max_result key_segments (node :: rest) kp used =
      greedy_fill max_result key_segments rest kp used := by
  simp only [greedy_fill]
  rw [if_neg h1]
  simp only [h2]

theorem greedy_fill_cons_used {max_result : Int} {key_segments : List String}
    {node : TreeNode} {rest : List TreeNode} {kp used : List String} {s : String}
    (h1 : ¬ (kp.length : Int) ≥ max_result)
    (h2 : key_segments.find?
      (fun key_segment => (get_path_segments node.url).contains key_segment) = some s)
    (h3 : s ∈ used) :
    greedy_fill max_result key_segments (node :: rest) kp used =
      greedy_fill max_result key_segments rest kp used := by
  simp only [greedy_fill]
  rw [if_neg h1]
  simp only [h2]
  rw [if_pos h3]

theorem greedy_fill_cons_fresh {max_result : Int} {key_segments : List String}
    {node : TreeNode} {rest : List TreeNode} {kp used : List String} {s : String}
    (h1 : ¬ (kp.length : Int) ≥ max_result)
    (h2 : key_segments.find?
      (fun key_segment => (get_path_segments node.url).contains key_segment) = some s)
    (h3 : s ∉ used) :
    greedy_fill max_result key_segments (node :: rest) kp used =
      ((greedy_fill max_result key_segments rest
          (greedy_added_pages max_result node kp) (setInsert s used)).1,
       (greedy_fill max_result key_segments rest
          (greedy_added_pages max_result node kp) (setInsert s used)).2.1,
       (s, node.url) :: (greedy_fill max_result key_segments rest
          (greedy_added_pages max_result node kp) (setInsert s used)).2.2) := by
  simp only [greedy_fill]
  rw [if_neg h1]
  simp only [h2]
  rw [if_neg h3]

/-! ### Budget lemmas (C3) -/

theorem add_children_length_le (max_result : Int) (children : List TreeNode) :
    ∀ key_pages : List String,
      ((add_children max_result children key_pages).length : Int) ≤
        max (key_pages.length : Int) max_result := by
  induction children with
  | nil => intro kp; exact le_max_left _ _
  | cons c cs ih =>
    intro kp
    show ((cs.foldl _ (if (kp.length : Int) < max_result ∧ is_denied_url c.url = true
        then setInsert c.url kp else kp)).length : Int) ≤ max (kp.length : Int) max_result
    by_cases hc : (kp.length : Int) < max_result ∧ is_denied_url c.url = true
    · rw [if_pos hc]
      refine le_trans (ih (setInsert c.url kp)) ?_
      have hle := setInsert_length_le c.url kp
      have hlt := hc.1
      simp only [max_le_iff, le_max_iff]
      omega
    · rw [if_neg hc]
      exact ih kp

theorem greedy_added_length_le {max_result : Int} {node : TreeNode} {kp : List String}
    (h : (kp.length : Int) < max_result) :
    ((greedy_added_pages max_result node kp).length : Int) ≤ max_result := by
  have hle := setInsert_length_le node.url kp
  unfold greedy_added_pages
  by_cases hleaf : node.children.isEmpty
  · rw [if_pos hleaf]; omega
  · rw [if_neg hleaf]
    refine le_trans (add_children_length_le max_result _ (setInsert node.url kp)) ?_
    simp only [max_le_iff]
    omega

theorem greedy_fill_length_le (max_result : Int) (key_segments : List String)
    (cands : List TreeNode) :
    ∀ key_pages used : List String,
      (((greedy_fill max_result key_segments cands key_pages used).1.length : Int)) ≤
        max (key_pages.length : Int) max_result := by
  induction cands with
  | nil => intro kp used; exact le_max_left _ _
  | cons node rest ih =>
    intro kp used
    by_cases hge : (kp.length : Int) ≥ max_result
    · rw [greedy_fill_cons_over hge]; exact le_max_left _ _
    · cases hf : key_segments.find?
          (fun key_segment => (get_path_segments node.url).contains key_segment) with
      | none => rw [greedy_fill_cons_none hge hf]; exact ih kp used
      | some s =>
        by_cases hu : s ∈ used
        · rw [greedy_fill_cons_used hge hf hu]; exact ih kp used
        · rw [greedy_fill_cons_fresh hge hf hu]
          have hkp2 : ((greedy_added_pages max_result node kp).length : Int) ≤ max_result :=
            greedy_added_length_le (by omega)
          refine le_trans (ih _ (setInsert s used)) ?_
          simp only [max_le_iff, le_max_iff]
          omega

theorem foldl_setInsert_length_le (us : List String) :
    ∀ kp : List String,
      (us.foldl (fun kp u => setInsert u kp) kp).length ≤ kp.length + us.length := by
  induction us with
  | nil => intro kp; simp
  | cons u us ih =>
    intro kp
    refine le_trans (ih (setInsert u kp)) ?_
    have := setInsert_length_le u kp
    simp only [List.length_cons]
    omega

theorem pre_fallback_length_le (tree : TreeNode) (key_segments : List String)
    (max_result : Int) :
    ((pre_fallback_pages tree key_segments max_result).length : Int) ≤
      max ((seed_pages tree).length : Int) max_result :=
  greedy_fill_length_le max_result key_segments _ (seed_pages tree) []

/-- C3: for every tree and `max_result ≥ 1`, the selector returns at most
`max max_result 2` URLs — at most `max_result`, except that the two seeds
may exceed an extremely small budget. -/
theorem C3_budget_bound (tree : TreeNode) (key_segments : List String)
    (max_result : Int) (h : 1 ≤ max_result) :
    ((extract_key_pages tree key_segments max_result).length : Int) ≤ max max_result 2 := by
  have hseed2 := seed_pages_length_le_two tree
  have hpre := pre_fallback_length_le tree key_segments max_result
  show ((if ((pre_fallback_pages tree key_segments max_result).length : Int) < max_result
      then _ else pre_fallback_pages tree key_segments max_result).length : Int) ≤
      max max_result 2
  by_cases hlt : ((pre_fallback_pages tree key_segments max_result).length : Int) < max_result
  · rw [if_pos hlt]
    have hfold := foldl_setInsert_length_le
      (((sortNodes (iter_leaves tree)).take
        (max_result - ((pre_fallback_pages tree key_segments max_result).length : Int)).toNat).map
          TreeNode.url)
      (pre_fallback_pages tree key_segments max_result)
    have htake : (((sortNodes (iter_leaves tree)).take
        (max_result - ((pre_fallback_pages tree key_segments max_result).length : Int)).toNat).map
          TreeNode.url).length ≤
        (max_result - ((pre_fallback_pages tree key_segments max_result).length : Int)).toNat := by
      rw [List.length_map]
      exact le_trans (List.length_take_le _ _) (le_refl _)
    simp only [le_max_iff]
    left
    omega
  · rw [if_neg hlt]
    rcases max_cases ((seed_pages tree).length : Int) max_result with ⟨heq, _⟩ | ⟨heq, _⟩ <;>
      rw [heq] at hpre <;> simp only [le_max_iff] <;> omega

/-- C3, witness at a concrete input: budget 1 on the two-leaf tree, where the
two seeds exceed the budget, giving exactly `max 1 2 = 2` URLs. -/
theorem C3_budget_witness :
    (1 : Int) ≤ 1 ∧
    ((extract_key_pages smallTree [] 1).length : Int) ≤ max 1 2 ∧
    (extract_key_pages smallTree [] 1).length = 2 :=
  ⟨by decide, C3_budget_bound smallTree [] 1 (by decide), by decide⟩

/-- C4, counterexample: on the two-leaf tree with `max_result = 3` and no key
segments, the selected set together with the leaf URLs holds 3 distinct URLs,
yet the result has only 2 members: the fallback slices the ranked leaves
*before* deduplicating against the already-selected URLs (`freshLeaf` is both
the freshness seed and the top-ranked leaf), so the budget is not reached even
though unused leaves remain. -/
theorem C4_counterexample :
    (extract_key_pages smallTree [] 3).length = 2 ∧
    ["http://x.com/", "http://x.com/a", "http://x.com/b"].Nodup ∧
    (∀ u ∈ ["http://x.com/", "http://x.com/a", "http://x.com/b"],
      u ∈ extract_key_pages smallTree [] 3 ∨
        u ∈ (iter_leaves smallTree).map TreeNode.url) := by
  decide

/-- C4, amended: when the result holds fewer than `max_result` URLs after the
seed and greedy stages, the fallback adds the URLs of exactly the first
`max_result − |result|` leaves in ranking order (not "until the budget is met
or leaves are exhausted"): leaves already selected count against this slice,
so the result can stay below `max_result` even when enough distinct leaf URLs
remain; the result still never exceeds `max_result`. -/
theorem C4_fallback_take_slice (tree : TreeNode) (key_segments : List String)
    (max_result : Int)
    (h : ((pre_fallback_pages tree key_segments max_result).length : Int) < max_result) :
    extract_key_pages tree key_segments max_result =
      (((sortNodes (iter_leaves tree)).take
          (max_result -
            ((pre_fallback_pages tree key_segments max_result).length : Int)).toNat).map
        TreeNode.url).foldl (fun kp u => setInsert u kp)
        (pre_fallback_pages tree key_segments max_result) ∧
    ((extract_key_pages tree key_segments max_result).length : Int) ≤ max_result := by
  constructor
  · show (if ((pre_fallback_pages tree key_segments max_result).length : Int) < max_result
        then _ else pre_fallback_pages tree key_segments max_result) = _
    rw [if_pos h]
  · have hfold := foldl_setInsert_length_le
      (((sortNodes (iter_leaves tree)).take
        (max_result -
          ((pre_fallback_pages tree key_segments max_result).length : Int)).toNat).map
          TreeNode.url)
      (pre_fallback_pages tree key_segments max_result)
    have htake : (((sortNodes (iter_leaves tree)).take
        (max_result -
          ((pre_fallback_pages tree key_segments max_result).length : Int)).toNat).map
          TreeNode.url).length ≤
        (max_result -
          ((pre_fallback_pages tree key_segments max_result).length : Int)).toNat := by
      rw [List.length_map]
      exact List.length_take_le _ _
    show ((if ((pre_fallback_pages tree key_segments max_result).length : Int) < max_result
        then _ else pre_fallback_pages tree key_segments max_result).length : Int) ≤ max_result
    rw [if_pos h]
    omega

/-- C4, witness for the amended theorem at a concrete input. -/
theorem C4_fallback_witness :
    ((pre_fallback_pages smallTree [] 3).length : Int) < 3 ∧
    extract_key_pages smallTree [] 3 =
      (((sortNodes (iter_leaves smallTree)).take
          (3 - ((pre_fallback_pages smallTree [] 3).length : Int)).toNat).map
        TreeNode.url).foldl (fun kp u => setInsert u kp) (pre_fallback_pages smallTree [] 3) ∧
    extract_key_pages smallTree [] 3 = ["http://x.com/", "http://x.com/a"] :=
  ⟨by decide, (C4_fallback_take_slice smallTree [] 3 (by decide)).1, by decide⟩

/-! ### Monotonicity: `key_pages` only ever grows (C5) -/

theorem mem_add_children (max_result : Int) (children : List TreeNode) :
    ∀ {v : String} {key_pages : List String}, v ∈ key_pages →
      v ∈ add_children max_result children key_pages := by
  induction children with
  | nil => intro v kp h; exact h
  | cons c cs ih =>
    intro v kp h
    show v ∈ cs.foldl _ (if (kp.length : Int) < max_result ∧ is_denied_url c.url = true
      then setInsert c.url kp else kp)
    by_cases hc : (kp.length : Int) < max_result ∧ is_denied_url c.url = true
    · rw [if_pos hc]; exact ih (mem_setInsert_of_mem _ h)
    · rw [if_neg hc]; exact ih h

theorem mem_greedy_added {max_result : Int} {node : TreeNode} {v : String}
    {key_pages : List String} (h : v ∈ key_pages) :
    v ∈ greedy_added_pages max_result node key_pages := by
  unfold greedy_added_pages
  by_cases hleaf : node.children.isEmpty
  · rw [if_pos hleaf]; exact mem_setInsert_of_mem _ h
  · rw [if_neg hleaf]; exact mem_add_children _ _ (mem_setInsert_of_mem _ h)

theorem mem_greedy_fill (max_result : Int) (key_segments : List String)
    (cands : List TreeNode) :
    ∀ {v : String} {key_pages used : List String}, v ∈ key_pages →
      v ∈ (greedy_fill max_result key_segments cands key_pages used).1 := by
  induction cands with
  | nil => intro v kp used h; exact h
  | cons node rest ih =>
    intro v kp used h
    by_cases hge : (kp.length : Int) ≥ max_result
    · rw [greedy_fill_cons_over hge]; exact h
    · cases hf : key_segments.find?
          (fun key_segment => (get_path_segments node.url).contains key_segment) with
      | none => rw [greedy_fill_cons_none hge hf]; exact ih h
      | some s =>
        by_cases hu : s ∈ used
        · rw [greedy_fill_cons_used hge hf hu]; exact ih h
        · rw [greedy_fill_cons_fresh hge hf hu]
          exact ih (mem_greedy_added h)

theorem mem_foldl_setInsert (us : List String) :
    ∀ {v : String} {key_pages : List String}, v ∈ key_pages →
      v ∈ us.foldl (fun kp u => setInsert u kp) key_pages := by
  induction us with
  | nil => intro v kp h; exact h
  | cons u us ih => intro v kp h; exact ih (mem_setInsert_of_mem _ h)

theorem seed_mem_extract (tree : TreeNode) (key_segments : List String)
    (max_result : Int) {v : String} (h : v ∈ seed_pages tree) :
    v ∈ extract_key_pages tree key_segments max_result := by
  have hpre : v ∈ pre_fallback_pages tree key_segments max_result :=
    mem_greedy_fill max_result key_segments _ h
  show v ∈ (if ((pre_fallback_pages tree key_segments max_result).length : Int) < max_result
      then _ else pre_fallback_pages tree key_segments max_result)
  by_cases hlt : ((pre_fallback_pages tree key_segments max_result).length : Int) < max_result
  · rw [if_pos hlt]; exact mem_foldl_setInsert _ hpre
  · rw [if_neg hlt]; exact hpre

/-! ### The freshness maximum (C5) -/

/-- The fold step of `last_changed_node` keeps a node of maximal
`last_modified`, the earliest such node among ties. -/
theorem foldl_max_spec (l : List TreeNode) :
    ∀ a : TreeNode,
      ∃ m, (l.foldl
          (fun acc n =>
            match acc with
            | none => some n
            | some a => if a.lastModified.getD 0 < n.lastModified.getD 0 then some n else some a)
          (some a)) = some m ∧
        (m = a ∨ m ∈ l) ∧ a.lastModified.getD 0 ≤ m.lastModified.getD 0 ∧
        ∀ k ∈ l, k.lastModified.getD 0 ≤ m.lastModified.getD 0 := by
  induction l with
  | nil => intro a; exact ⟨a, rfl, Or.inl rfl, le_refl _, by simp⟩
  | cons n l ih =>
    intro a
    show ∃ m, (l.foldl _
        (if a.lastModified.getD 0 < n.lastModified.getD 0 then some n else some a)) = some m ∧ _
    by_cases hlt : a.lastModified.getD 0 < n.lastModified.getD 0
    · rw [if_pos hlt]
      obtain ⟨m, hm, hmem, hle, hall⟩ := ih n
      refine ⟨m, hm, ?_, ?_, ?_⟩
      · rcases hmem with h | h
        · exact Or.inr (by simp [h])
        · exact Or.inr (by simp [h])
      · exact le_trans (le_of_lt hlt) hle
      · intro k hk
        rcases List.mem_cons.mp hk with h | h
        · subst h; exact hle
        · exact hall k h
    · rw [if_neg hlt]
      obtain ⟨m, hm, hmem, hle, hall⟩ := ih a
      refine ⟨m, hm, ?_, hle, ?_⟩
      · rcases hmem with h | h
        · exact Or.inl h
        · exact Or.inr (by simp [h])
      · intro k hk
        rcases List.mem_cons.mp hk with h | h
        · subst h; omega
        · exact hall k h

theorem last_changed_node_spec (tree : TreeNode)
    (h : ∃ n ∈ iter_nodes tree, n.lastModified.isSome = true) :
    ∃ m, last_changed_node tree = some m ∧ m ∈ iter_nodes tree ∧
      m.lastModified.isSome = true ∧
      ∀ k ∈ iter_nodes tree, ∀ d : Int, k.lastModified = some d →
        d ≤ m.lastModified.getD 0 := by
  obtain ⟨n0, hn0, hn0s⟩ := h
  have hn0f : n0 ∈ (iter_nodes tree).filter fun n => n.lastModified.isSome :=
    List.mem_filter.mpr ⟨hn0, hn0s⟩
  unfold last_changed_node
  cases hfl : (iter_nodes tree).filter (fun n => n.lastModified.isSome) with
  | nil => rw [hfl] at hn0f; cases hn0f
  | cons x xs =>
    obtain ⟨m, hm, hmem, hle, hall⟩ := foldl_max_spec xs x
    have hxf : x ∈ (iter_nodes tree).filter fun n => n.lastModified.isSome := by
      rw [hfl]; exact List.mem_cons_self _ _
    refine ⟨m, hm, ?_, ?_, ?_⟩
    · have : m ∈ (iter_nodes tree).filter fun n => n.lastModified.isSome := by
        rw [hfl]
        rcases hmem with h | h
        · rw [h]; exact List.mem_cons_self _ _
        · exact List.mem_cons_of_mem _ h
      exact (List.mem_filter.mp this).1
    · have : m ∈ (iter_nodes tree).filter fun n => n.lastModified.isSome := by
        rw [hfl]
        rcases hmem with h | h
        · rw [h]; exact List.mem_cons_self _ _
        · exact List.mem_cons_of_mem _ h
      exact (List.mem_filter.mp this).2
    · intro k hk d hd
      have hkf : k ∈ (iter_nodes tree).filter fun n => n.lastModified.isSome :=
        List.mem_filter.mpr ⟨hk, by rw [hd]; rfl⟩
      rw [hfl] at hkf
      have hkd : k.lastModified.getD 0 = d := by rw [hd]; rfl
      rcases List.mem_cons.mp hkf with h | h
      · rw [← hkd, h]
        exact hle
      · rw [← hkd]; exact hall k h

theorem mem_seed_pages_fresh {tree : TreeNode} {m : TreeNode}
    (h : last_changed_node tree = some m) : m.url ∈ seed_pages tree := by
  unfold seed_pages
  rw [h]
  exact mem_setInsert_self _ _

/-- C5: the result of `extract_key_pages` always contains the root URL, and
whenever some node carries a `last_modified` timestamp it also contains the
URL of a node whose `last_modified` is maximal among all dated nodes. -/
theorem C5_root_and_freshness (tree : TreeNode) (key_segments : List String)
    (max_result : Int) :
    tree.url ∈ extract_key_pages tree key_segments max_result ∧
    ((∃ n ∈ iter_nodes tree, n.lastModified.isSome = true) →
      ∃ m ∈ iter_nodes tree, m.lastModified.isSome = true ∧
        m.url ∈ extract_key_pages tree key_segments max_result ∧
        ∀ k ∈ iter_nodes tree, ∀ d : Int, k.lastModified = some d →
          d ≤ m.lastModified.getD 0) := by
  constructor
  · exact seed_mem_extract tree key_segments max_result (mem_seed_pages_root tree)
  · intro h
    obtain ⟨m, hm, hmem, hs, hmax⟩ := last_changed_node_spec tree h
    exact ⟨m, hmem, hs,
      seed_mem_extract tree key_segments max_result (mem_seed_pages_fresh hm), hmax⟩

/-- C5, witness at a concrete input (the dated leaf is the freshness seed). -/
theorem C5_root_and_freshness_witness :
    "http://x.com/" ∈ extract_key_pages smallTree ["x"] 1 ∧
    ∃ m ∈ iter_nodes smallTree, m.lastModified.isSome = true ∧
      m.url ∈ extract_key_pages smallTree ["x"] 1 ∧
      ∀ k ∈ iter_nodes smallTree, ∀ d : Int, k.lastModified = some d →
        d ≤ m.lastModified.getD 0 :=
  ⟨(C5_root_and_freshness smallTree ["x"] 1).1,
   (C5_root_and_freshness smallTree ["x"] 1).2 (by decide)⟩

/-! ### Segment diversity of the greedy fill (C6) -/

theorem self_mem_greedy_added (max_result : Int) (node : TreeNode) (kp : List String) :
    node.url ∈ greedy_added_pages max_result node kp := by
  unfold greedy_added_pages
  by_cases hleaf : node.children.isEmpty
  · rw [if_pos hleaf]; exact mem_setInsert_self _ _
  · rw [if_neg hleaf]; exact mem_add_children _ _ (mem_setInsert_self _ _)

/-- The audit log of the greedy fill names pairwise-distinct key segments,
none of them in the incoming `used` set, and every logged pair records the
candidate's first-matching segment together with an admitted URL. -/
theorem greedy_fill_log_spec (max_result : Int) (key_segments : List String)
    (cands : List TreeNode) :
    ∀ kp used : List String,
      (((greedy_fill max_result key_segments cands kp used).2.2.map Prod.fst).Nodup) ∧
      (∀ s ∈ (greedy_fill max_result key_segments cands kp used).2.2.map Prod.fst,
        s ∉ used) ∧
      (∀ p ∈ (greedy_fill max_result key_segments cands kp used).2.2,
        key_segments.find? (fun s => (get_path_segments p.2).contains s) = some p.1 ∧
        p.2 ∈ (greedy_fill max_result key_segments cands kp used).1) := by
  induction cands with
  | nil =>
    intro kp used
    refine ⟨List.nodup_nil, ?_, ?_⟩
    · intro s hs
      simp [greedy_fill] at hs
    · intro p hp
      simp [greedy_fill] at hp
  | cons node rest ih =>
    intro kp used
    by_cases hge : (kp.length : Int) ≥ max_result
    · rw [greedy_fill_cons_over hge]
      refine ⟨List.nodup_nil, ?_, ?_⟩
      · intro s hs
        simp at hs
      · intro p hp
        simp at hp
    · cases hf : key_segments.find?
          (fun key_segment => (get_path_segments node.url).contains key_segment) with
      | none => rw [greedy_fill_cons_none hge hf]; exact ih kp used
      | some s =>
        by_cases hu : s ∈ used
        · rw [greedy_fill_cons_used hge hf hu]; exact ih kp used
        · rw [greedy_fill_cons_fresh hge hf hu]
          obtain ⟨ih1, ih2, ih3⟩ :=
            ih (greedy_added_pages max_result node kp) (setInsert s used)
          refine ⟨?_, ?_, ?_⟩
          · simp only [List.map_cons]
            refine List.nodup_cons.mpr ⟨?_, ih1⟩
            intro hmem
            exact absurd (mem_setInsert_self s used) (ih2 s hmem)
          · simp only [List.map_cons, List.mem_cons]
            rintro s2 (rfl | hs2)
            · exact hu
            · intro hs2u
              exact ih2 s2 hs2 (mem_setInsert_of_mem _ hs2u)
          · intro p hp
            rcases List.mem_cons.mp hp with rfl | hp2
            · exact ⟨hf, mem_greedy_fill _ _ _ (self_mem_greedy_added _ _ _)⟩
            · exact ih3 p hp2

/-- C6: over the whole greedy pass (started, as in the source, with an empty
`used_segments` set) every key segment is matched at most once: the audit log
has pairwise-distinct segments; each logged admission pairs a candidate URL
with the first element of `key_segments` occurring in its path segments, and
that URL is in the final set; and a candidate whose first-matching segment is
already used leaves the state untouched — it contributes neither its URL nor
its children. -/
theorem C6_segment_diversity (max_result : Int) (key_segments : List String)
    (cands : List TreeNode) (key_pages : List String) :
    (((greedy_fill max_result key_segments cands key_pages []).2.2.map Prod.fst).Nodup) ∧
    (∀ p ∈ (greedy_fill max_result key_segments cands key_pages []).2.2,
      key_segments.find? (fun s => (get_path_segments p.2).contains s) = some p.1 ∧
      p.2 ∈ (greedy_fill max_result key_segments cands key_pages []).1) ∧
    (∀ (node : TreeNode) (rest : List TreeNode) (kp used : List String) (s : String),
      ¬ (kp.length : Int) ≥ max_result →
      key_segments.find?
        (fun key_segment => (get_path_segments node.url).contains key_segment) = some s →
      s ∈ used →
      greedy_fill max_result key_segments (node :: rest) kp used =
        greedy_fill max_result key_segments rest kp used) := by
  obtain ⟨h1, _, h3⟩ := greedy_fill_log_spec max_result key_segments cands key_pages []
  exact ⟨h1, h3, fun node rest kp used s hge hf hu =>
    greedy_fill_cons_used hge hf hu⟩

/-- C6, witness: a duplicated `/catalog` candidate is admitted once — the
second occurrence finds "catalog" used and changes nothing. -/
theorem C6_segment_diversity_witness :
    ((greedy_fill 15 ["catalog"] [catalogNode, catalogNode] ["http://x.com/"] []).2.2.map
      Prod.fst).Nodup ∧
    (greedy_fill 15 ["catalog"] [catalogNode, catalogNode] ["http://x.com/"] []).2.2.map
      Prod.fst = ["catalog"] ∧
    greedy_fill 15 ["catalog"] [catalogNode] ["u"] ["catalog"] =
      greedy_fill 15 ["catalog"] [] ["u"] ["catalog"] :=
  ⟨(C6_segment_diversity 15 ["catalog"] [catalogNode, catalogNode] ["http://x.com/"]).1,
   by decide,
   (C6_segment_diversity 15 ["catalog"] [] ["u"]).2.2 catalogNode [] ["u"] ["catalog"]
     "catalog" (by decide) (by decide) (by decide)⟩

/-! ### Frame lemmas for `add_page_to_tree` (C7, C10) -/

theorem setChildren_name (t : TreeNode) (cs : List TreeNode) :
    (t.setChildren cs).name = t.name := by cases t; rfl

theorem setChildren_url (t : TreeNode) (cs : List TreeNode) :
    (t.setChildren cs).url = t.url := by cases t; rfl

theorem setChildren_priority (t : TreeNode) (cs : List TreeNode) :
    (t.setChildren cs).priority = t.priority := by cases t; rfl

theorem setChildren_lastModified (t : TreeNode) (cs : List TreeNode) :
    (t.setChildren cs).lastModified = t.lastModified := by cases t; rfl

theorem setChildren_children (t : TreeNode) (cs : List TreeNode) :
    (t.setChildren cs).children = cs := by cases t; rfl

theorem add_page_cons_found {base : String} {pp : Option Rat} {plm : Option Int}
    {root : TreeNode} {seg : String} {rest1 : List String} {c : TreeNode}
    (h : root.children.find? (fun c => c.name == seg) = some c) (done : List String) :
    add_page_to_tree base pp plm root done (seg :: rest1) =
      root.setChildren (replaceChild seg
        (add_page_to_tree base pp plm c (done ++ [seg]) rest1) root.children) := by
  simp only [add_page_to_tree, h]

theorem add_page_cons_new {base : String} {pp : Option Rat} {plm : Option Int}
    {root : TreeNode} {seg : String} {rest1 : List String}
    (h : root.children.find? (fun c => c.name == seg) = none) (done : List String) :
    add_page_to_tree base pp plm root done (seg :: rest1) =
      root.setChildren (root.children ++
        [add_page_to_tree base pp plm
          (.mk seg (synth_url base (done ++ [seg])) pp plm []) (done ++ [seg]) rest1]) := by
  simp only [add_page_to_tree, h]

/-- `add_page_to_tree` never touches the fields of the node it starts from,
only (possibly) its children. -/
theorem add_page_root_fields (base : String) (pp : Option Rat) (plm : Option Int)
    (root : TreeNode) (done rest : List String) :
    (add_page_to_tree base pp plm root done rest).name = root.name ∧
    (add_page_to_tree base pp plm root done rest).url = root.url ∧
    (add_page_to_tree base pp plm root done rest).priority = root.priority ∧
    (add_page_to_tree base pp plm root done rest).lastModified = root.lastModified := by
  cases rest with
  | nil => exact ⟨rfl, rfl, rfl, rfl⟩
  | cons seg rest1 =>
    cases hfind : root.children.find? (fun c => c.name == seg) with
    | some c =>
      rw [add_page_cons_found hfind]
      exact ⟨setChildren_name _ _, setChildren_url _ _, setChildren_priority _ _,
        setChildren_lastModified _ _⟩
    | none =>
      rw [add_page_cons_new hfind]
      exact ⟨setChildren_name _ _, setChildren_url _ _, setChildren_priority _ _,
        setChildren_lastModified _ _⟩

theorem findPath_cons (t : TreeNode) (s : String) (p1 : List String) :
    findPath t (s :: p1) =
      match t.children.find? (fun c => c.name == s) with
      | some c => findPath c p1
      | none => none := rfl

theorem find?_replaceChild_self {seg : String} {cs : List TreeNode} {c c1 : TreeNode}
    (h : cs.find? (fun x => x.name == seg) = some c) (hc1 : c1.name = seg) :
    (replaceChild seg c1 cs).find? (fun x => x.name == seg) = some c1 := by
  induction cs with
  | nil => cases h
  | cons c0 cs ih =>
    simp only [replaceChild]
    by_cases h0 : c0.name = seg
    · rw [if_pos h0]
      rw [List.find?_cons_of_pos _ (by simp [hc1])]
    · have h' : cs.find? (fun x => x.name == seg) = some c := by
        rw [List.find?_cons_of_neg _ (by simp [h0])] at h
        exact h
      rw [if_neg h0, List.find?_cons_of_neg _ (by simp [h0])]
      exact ih h'

theorem find?_replaceChild_ne {seg s : String} (hne : s ≠ seg) {cs : List TreeNode}
    {c1 : TreeNode} (hc1 : c1.name = seg) :
    (replaceChild seg c1 cs).find? (fun x => x.name == s) =
      cs.find? (fun x => x.name == s) := by
  induction cs with
  | nil => rfl
  | cons c0 cs ih =>
    simp only [replaceChild]
    by_cases h0 : c0.name = seg
    · rw [if_pos h0]
      rw [List.find?_cons_of_neg _ (by simp [hc1]; exact Ne.symm hne),
        List.find?_cons_of_neg _ (by simp [h0]; exact Ne.symm hne)]
    · rw [if_neg h0]
      by_cases hs0 : c0.name = s
      · rw [List.find?_cons_of_pos _ (by simp [hs0]),
          List.find?_cons_of_pos _ (by simp [hs0])]
      · rw [List.find?_cons_of_neg _ (by simp [hs0]),
          List.find?_cons_of_neg _ (by simp [hs0])]
        exact ih

/-- Every node reachable in the original tree is still reachable after an
insertion, with `name`, `url`, `priority` and `last_modified` unchanged. -/
theorem findPath_add_page_preserved (base : String) (pp : Option Rat) (plm : Option Int) :
    ∀ (rest : List String) (root : TreeNode) (done p : List String) (n : TreeNode),
      findPath root p = some n →
      ∃ n2, findPath (add_page_to_tree base pp plm root done rest) p = some n2 ∧
        n2.name = n.name ∧ n2.url = n.url ∧ n2.priority = n.priority ∧
        n2.lastModified = n.lastModified := by
  intro rest
  induction rest with
  | nil => intro root done p n h; exact ⟨n, h, rfl, rfl, rfl, rfl⟩
  | cons seg rest1 ih =>
    intro root done p n h
    cases hfind : root.children.find? (fun c => c.name == seg) with
    | some c =>
      have hcname : c.name = seg := by
        have := List.find?_some hfind
        simpa using this
      have hc1name : (add_page_to_tree base pp plm c (done ++ [seg]) rest1).name = seg := by
        rw [(add_page_root_fields base pp plm c (done ++ [seg]) rest1).1, hcname]
      rw [add_page_cons_found hfind]
      cases p with
      | nil =>
        cases h
        exact ⟨_, rfl, setChildren_name _ _, setChildren_url _ _,
          setChildren_priority _ _, setChildren_lastModified _ _⟩
      | cons s p1 =>
        cases hfs : root.children.find? (fun x => x.name == s) with
        | none =>
          rw [findPath_cons, hfs] at h
          cases h
        | some cfound =>
          have h' : findPath cfound p1 = some n := by
            rw [findPath_cons, hfs] at h
            exact h
          by_cases hseq : s = seg
          · have he : c = cfound := by
              rw [hseq, hfind] at hfs
              exact Option.some.inj hfs
            rw [← he] at h'
            obtain ⟨n2, hn2, hfields⟩ := ih c (done ++ [seg]) p1 n h'
            refine ⟨n2, ?_, hfields⟩
            rw [hseq, findPath_cons, setChildren_children,
              find?_replaceChild_self hfind hc1name]
            exact hn2
          · refine ⟨n, ?_, rfl, rfl, rfl, rfl⟩
            rw [findPath_cons, setChildren_children, find?_replaceChild_ne hseq hc1name, hfs]
            exact h'
    | none =>
      rw [add_page_cons_new hfind]
      cases p with
      | nil =>
        cases h
        exact ⟨_, rfl, setChildren_name _ _, setChildren_url _ _,
          setChildren_priority _ _, setChildren_lastModified _ _⟩
      | cons s p1 =>
        cases hfs : root.children.find? (fun x => x.name == s) with
        | none =>
          rw [findPath_cons, hfs] at h
          cases h
        | some cfound =>
          have h' : findPath cfound p1 = some n := by
            rw [findPath_cons, hfs] at h
            exact h
          refine ⟨n, ?_, rfl, rfl, rfl, rfl⟩
          rw [findPath_cons, setChildren_children, List.find?_append, hfs]
          exact h'

/-- Every nonempty prefix of the inserted segment path that was absent from
the tree is reachable after the insertion, and the node there carries the
inserting record's own `priority` and `last_modified` (and the synthesized
URL for its path). -/
theorem findPath_add_page_created (base : String) (pp : Option Rat) (plm : Option Int) :
    ∀ (rest : List String) (root : TreeNode) (done p : List String),
      p ≠ [] → p <+: rest → findPath root p = none →
      ∃ n2, findPath (add_page_to_tree base pp plm root done rest) p = some n2 ∧
        n2.priority = pp ∧ n2.lastModified = plm ∧
        n2.url = synth_url base (done ++ p) := by
  intro rest
  induction rest with
  | nil =>
    intro root done p hne hpre h
    exact absurd (List.prefix_nil.mp hpre) hne
  | cons seg rest1 ih =>
    intro root done p hne hpre h
    cases p with
    | nil => exact absurd rfl hne
    | cons s p1 =>
      obtain ⟨hs, hp1pre⟩ := List.cons_prefix_cons.mp hpre
      cases hfind : root.children.find? (fun c => c.name == seg) with
      | some c =>
        have hcname : c.name = seg := by simpa using List.find?_some hfind
        have hc1name : (add_page_to_tree base pp plm c (done ++ [seg]) rest1).name = seg := by
          rw [(add_page_root_fields base pp plm c (done ++ [seg]) rest1).1, hcname]
        have h' : findPath c p1 = none := by
          rw [findPath_cons, hs, hfind] at h
          exact h
        cases p1 with
        | nil =>
          simp [findPath] at h'
        | cons q qs =>
          obtain ⟨n2, hn2, hprio, hlm, hurl⟩ :=
            ih c (done ++ [seg]) (q :: qs) (by simp) hp1pre h'
          refine ⟨n2, ?_, hprio, hlm, ?_⟩
          · rw [add_page_cons_found hfind, hs, findPath_cons, setChildren_children,
              find?_replaceChild_self hfind hc1name]
            exact hn2
          · rw [hurl, hs]
            congr 1
            simp
      | none =>
        rw [add_page_cons_new hfind]
        have hnewname : (add_page_to_tree base pp plm
            (TreeNode.mk seg (synth_url base (done ++ [seg])) pp plm [])
            (done ++ [seg]) rest1).name = seg :=
          (add_page_root_fields base pp plm _ (done ++ [seg]) rest1).1
        have hfindapp : (root.children ++
            [add_page_to_tree base pp plm
              (TreeNode.mk seg (synth_url base (done ++ [seg])) pp plm [])
              (done ++ [seg]) rest1]).find? (fun x => x.name == seg) =
            some (add_page_to_tree base pp plm
              (TreeNode.mk seg (synth_url base (done ++ [seg])) pp plm [])
              (done ++ [seg]) rest1) := by
          rw [List.find?_append, hfind]
          simp [hnewname]
        have hfields := add_page_root_fields base pp plm
          (TreeNode.mk seg (synth_url base (done ++ [seg])) pp plm []) (done ++ [seg]) rest1
        cases p1 with
        | nil =>
          refine ⟨add_page_to_tree base pp plm
              (TreeNode.mk seg (synth_url base (done ++ [seg])) pp plm [])
              (done ++ [seg]) rest1, ?_, ?_, ?_, ?_⟩
          · rw [hs, findPath_cons, setChildren_children, hfindapp]
            rfl
          · exact hfields.2.2.1
          · exact hfields.2.2.2
          · rw [hfields.2.1, hs]
            rfl
        | cons q qs =>
          have hnone : findPath
              (TreeNode.mk seg (synth_url base (done ++ [seg])) pp plm []) (q :: qs) =
              none := by
            rw [findPath_cons]
            rfl
          obtain ⟨n2, hn2, hprio, hlm, hurl⟩ :=
            ih _ (done ++ [seg]) (q :: qs) (by simp) hp1pre hnone
          refine ⟨n2, ?_, hprio, hlm, ?_⟩
          · rw [hs, findPath_cons, setChildren_children, hfindapp]
            exact hn2
          · rw [hurl, hs]
            congr 1
            simp

/-- C7: tree metadata is assigned only at node creation.  Inserting a record
leaves the `name`, `url`, `priority` and `last_modified` of every node that
already existed (reachable by its segment path) unchanged, and every node the
insertion creates — including intermediate ones — carries the inserting
record's own `priority` and `last_modified` and the URL synthesized for its
path; a later record for an existing path therefore re-assigns nothing. -/
theorem C7_metadata_only_at_creation (base : String) (pp : Option Rat)
    (plm : Option Int) (root : TreeNode) (segments : List String) :
    (∀ (p : List String) (n : TreeNode), findPath root p = some n →
      ∃ n2, findPath (add_page_to_tree base pp plm root [] segments) p = some n2 ∧
        n2.name = n.name ∧ n2.url = n.url ∧ n2.priority = n.priority ∧
        n2.lastModified = n.lastModified) ∧
    (∀ p : List String, p ≠ [] → p <+: segments → findPath root p = none →
      ∃ n2, findPath (add_page_to_tree base pp plm root [] segments) p = some n2 ∧
        n2.priority = pp ∧ n2.lastModified = plm ∧ n2.url = synth_url base p) := by
  constructor
  · intro p n h
    exact findPath_add_page_preserved base pp plm segments root [] p n h
  · intro p hne hpre h
    obtain ⟨n2, hn2, hprio, hlm, hurl⟩ :=
      findPath_add_page_created base pp plm segments root [] p hne hpre h
    exact ⟨n2, hn2, hprio, hlm, by rw [hurl, List.nil_append]⟩

/-- C7, witness: inserting `/a/c` into the two-leaf tree descends into the
existing dated leaf `a` (whose metadata survives) and creates `c` carrying
the record's own priority and timestamp. -/
theorem C7_metadata_witness :
    (∃ n2, findPath (add_page_to_tree "http://x.com/" (some (mkRat 3 10)) (some 7)
        smallTree [] ["a", "c"]) ["a"] = some n2 ∧
      n2.name = freshLeaf.name ∧ n2.url = freshLeaf.url ∧
      n2.priority = freshLeaf.priority ∧ n2.lastModified = freshLeaf.lastModified) ∧
    (∃ n2, findPath (add_page_to_tree "http://x.com/" (some (mkRat 3 10)) (some 7)
        smallTree [] ["a", "c"]) ["a", "c"] = some n2 ∧
      n2.priority = some (mkRat 3 10) ∧ n2.lastModified = some 7 ∧
      n2.url = synth_url "http://x.com/" ["a", "c"]) :=
  ⟨(C7_metadata_only_at_creation "http://x.com/" (some (mkRat 3 10)) (some 7)
      smallTree ["a", "c"]).1 ["a"] freshLeaf rfl,
   (C7_metadata_only_at_creation "http://x.com/" (some (mkRat 3 10)) (some 7)
      smallTree ["a", "c"]).2 ["a", "c"] (by decide) (by decide) rfl⟩

/-! ### Idempotence on duplicate paths (C10) -/

theorem replaceChild_self {seg : String} : ∀ {cs : List TreeNode} {c : TreeNode},
    cs.find? (fun x => x.name == seg) = some c → replaceChild seg c cs = cs := by
  intro cs
  induction cs with
  | nil => intro c h; cases h
  | cons c0 cs ih =>
    intro c h
    simp only [replaceChild]
    by_cases h0 : c0.name = seg
    · rw [if_pos h0]
      have he : c0 = c := by
        rw [List.find?_cons_of_pos _ (by simp [h0])] at h
        exact Option.some.inj h
      rw [he]
    · rw [if_neg h0]
      have h' : cs.find? (fun x => x.name == seg) = some c := by
        rw [List.find?_cons_of_neg _ (by simp [h0])] at h
        exact h
      rw [ih h']

theorem setChildren_self (t : TreeNode) : t.setChildren t.children = t := by
  cases t; rfl

theorem add_page_exists_noop (base : String) (pp : Option Rat) (plm : Option Int) :
    ∀ (segments : List String) (root : TreeNode) (done : List String),
      (findPath root segments).isSome = true →
      add_page_to_tree base pp plm root done segments = root := by
  intro segments
  induction segments with
  | nil => intro root done _; rfl
  | cons seg rest1 ih =>
    intro root done h
    cases hfind : root.children.find? (fun c => c.name == seg) with
    | none =>
      rw [findPath_cons, hfind] at h
      simp at h
    | some c =>
      have h' : (findPath c rest1).isSome = true := by
        rw [findPath_cons, hfind] at h
        exact h
      rw [add_page_cons_found hfind, ih c (done ++ [seg]) h', replaceChild_self hfind,
        setChildren_self]

theorem build_site_tree_append (url : String) (pages : List SitemapPage)
    (page : SitemapPage) :
    build_site_tree url (pages ++ [page]) =
      add_page_to_tree url page.priority page.last_modified (build_site_tree url pages) []
        (parse_url_path page.url) := by
  unfold build_site_tree
  rw [List.foldl_append]
  rfl

/-- C10: inserting a record whose full segment path already exists in the tree
leaves the tree completely unchanged; consequently a duplicate record appended
to the sitemap sequence does not alter the built tree. -/
theorem C10_duplicate_insert_noop :
    (∀ (base : String) (pp : Option Rat) (plm : Option Int) (root : TreeNode)
        (done segments : List String),
      (findPath root segments).isSome = true →
      add_page_to_tree base pp plm root done segments = root) ∧
    (∀ (url : String) (pages : List SitemapPage) (page : SitemapPage),
      (findPath (build_site_tree url pages) (parse_url_path page.url)).isSome = true →
      build_site_tree url (pages ++ [page]) = build_site_tree url pages) := by
  constructor
  · intro base pp plm root done segments h
    exact add_page_exists_noop base pp plm segments root done h
  · intro url pages page h
    rw [build_site_tree_append]
    exact add_page_exists_noop url page.priority page.last_modified _ _ [] h

/-- C10, witness: re-inserting the existing `/a` record leaves `smallTree`
unchanged, and appending a duplicate sitemap record does not change the
built tree. -/
theorem C10_duplicate_insert_witness :
    (findPath smallTree ["a"]).isSome = true ∧
    add_page_to_tree "http://x.com/" (some (mkRat 1 2)) (some 42) smallTree [] ["a"] =
      smallTree ∧
    build_site_tree "http://x.com/"
        ([⟨"http://x.com/a", none, some 100⟩] ++ [⟨"http://x.com/a", none, some 100⟩]) =
      build_site_tree "http://x.com/" [⟨"http://x.com/a", none, some 100⟩] :=
  ⟨rfl,
   C10_duplicate_insert_noop.1 "http://x.com/" (some (mkRat 1 2)) (some 42) smallTree []
     ["a"] rfl,
   C10_duplicate_insert_noop.2 "http://x.com/" [⟨"http://x.com/a", none, some 100⟩]
     ⟨"http://x.com/a", none, some 100⟩ rfl⟩

/-! ### Malformed timestamps (C9) -/

/-- C9, counterexample: a malformed timestamp does normalize to `none`, but
such an undated node is *not* "sorted after all dated nodes": with a higher
sitemap priority (0.9 vs 0.1) the undated node ranks strictly before the
dated node, because priority dominates the step-4 sort key. -/
theorem C9_counterexample :
    validate_last_modified (fun _ => none) (some (Sum.inl "not-a-date")) = none ∧
    (sortNodes [datedLowPrio, undatedHighPrio]).map TreeNode.url =
      ["http://x.com/u", "http://x.com/d"] := by
  decide

/-- C9, amended: any `last_modified` string on which the ISO-8601 parser
fails normalizes to `none` — node construction never raises — and the node is
ranked as undated: its date score is `0`, and *among nodes of equal priority*
it sorts after every node whose timestamp is after the Unix epoch (a higher
priority, or a pre-epoch timestamp on the dated node, can reverse the
order). -/
theorem C9_unparsed_timestamp (fromisoformat : String → Option Int) (s : String)
    (hpf : fromisoformat s = none) (n1 n2 : TreeNode) (hp : n1.priority = n2.priority)
    (h1 : n1.lastModified = none) (d : Int) (h2 : n2.lastModified = some d)
    (hd : 0 < d) :
    validate_last_modified fromisoformat (some (Sum.inl s)) = none ∧
    (get_node_sort_key n1).2.1 = 0 ∧
    tupleLeb (get_node_sort_key n2) (get_node_sort_key n1) = true ∧
    tupleLeb (get_node_sort_key n1) (get_node_sort_key n2) = false ∧
    sortNodes [n1, n2] = [n2, n1] := by
  have e1 : (get_node_sort_key n2).1 = (get_node_sort_key n1).1 := by
    simp [get_node_sort_key, hp]
  have e2 : (get_node_sort_key n2).2.1 = -(d : Rat) := by
    simp [get_node_sort_key, h2]
  have e3 : (get_node_sort_key n1).2.1 = 0 := by
    simp [get_node_sort_key, h1]
  have hdpos : (0 : Rat) < (d : Rat) := by exact_mod_cast hd
  have hdlt : (-(d : Rat)) < 0 := by linarith
  have hle : tupleLeb (get_node_sort_key n2) (get_node_sort_key n1) = true := by
    show (decide ((get_node_sort_key n2).1 < (get_node_sort_key n1).1) || _) = true
    rw [e1, e2, e3]
    simp [hdlt]
  have hnle : tupleLeb (get_node_sort_key n1) (get_node_sort_key n2) = false := by
    show (decide ((get_node_sort_key n1).1 < (get_node_sort_key n2).1) || _) = false
    rw [e1, e2, e3]
    simp [not_lt.mpr (le_of_lt hdlt), ne_of_gt hdlt, lt_irrefl]
  refine ⟨?_, e3, hle, hnle, ?_⟩
  · unfold validate_last_modified
    by_cases hs : s = "" <;> simp [hs, hpf]
  · have hstep : sortNodes [n1, n2] =
        if tupleLeb (get_node_sort_key n1) (get_node_sort_key n2) then [n1, n2]
        else [n2, n1] := rfl
    rw [hstep, hnle]
    simp

/-- C9, witness for the amended theorem at a concrete input. -/
theorem C9_unparsed_timestamp_witness :
    validate_last_modified (fun _ => none) (some (Sum.inl "not-a-date")) = none ∧
    (get_node_sort_key undatedPlain).2.1 = 0 ∧
    tupleLeb (get_node_sort_key datedPlain) (get_node_sort_key undatedPlain) = true ∧
    tupleLeb (get_node_sort_key undatedPlain) (get_node_sort_key datedPlain) = false ∧
    sortNodes [undatedPlain, datedPlain] = [datedPlain, undatedPlain] :=
  C9_unparsed_timestamp (fun _ => none) "not-a-date" rfl undatedPlain datedPlain rfl rfl
    100 rfl (by decide)

/-! ### Structural invariants of the built tree (C8) -/

/-- A usable path segment: nonempty and slash-free (what `parse_url_path`
always produces). -/
def goodSeg (s : String) : Prop :=
  s.toList ≠ [] ∧ '/' ∉ s.toList

/-- The raw URL a node at the given root-relative path is synthesized with:
the homepage URL itself at the root, the synthesized join below it. -/
def urlAt (base : String) : List String → String
  | [] => base
  | p => synth_url base p

/-- The URL a node at the given root-relative path carries once the pydantic
`HttpUrl` field validation (modelled as the normalizer `norm`) has run: the
homepage URL itself at the root — it reaches `build_site_tree` through an
`HttpUrl`-typed parameter, hence already normalized — and the normalized
synthesized join below it. -/
def normUrlAt (norm : String → String) (base : String) : List String → String
  | [] => base
  | p => norm (synth_url base p)

theorem normUrlAt_id (base : String) (p : List String) :
    normUrlAt id base p = urlAt base p := by
  cases p <;> rfl

/-- `add_page_to_tree` with the pydantic `HttpUrl` validation step of
`TreeNode.model_validate` made explicit: the source stores the synthesized
`full_url` string through the `HttpUrl` field type, which normalizes the URL
(WHATWG normalization in pydantic v2), modelled by the parameter `norm`.
`add_page_to_tree` is the `norm = id` special case, exact for URLs the
normalizer leaves unchanged. -/
def add_page_to_tree_n (norm : String → String) (base_url : String) (pp : Option Rat)
    (plm : Option Int) : TreeNode → List String → List String → TreeNode
  | root, _, [] => root
  | root, done, seg :: rest1 =>
    match root.children.find? (fun c => c.name == seg) with
    | some c =>
      let c1 := add_page_to_tree_n norm base_url pp plm c (done ++ [seg]) rest1
      root.setChildren (replaceChild seg c1 root.children)
    | none =>
      let full_url := norm (synth_url base_url (done ++ [seg]))
      let node : TreeNode := .mk seg full_url pp plm []
      let c1 := add_page_to_tree_n norm base_url pp plm node (done ++ [seg]) rest1
      root.setChildren (root.children ++ [c1])

/-- `build_site_tree` with the `HttpUrl` normalization of created-node URLs
made explicit (see `add_page_to_tree_n`). -/
def build_site_tree_n (norm : String → String) (url : String)
    (pages : List SitemapPage) : TreeNode :=
  pages.foldl
    (fun r page =>
      add_page_to_tree_n norm url page.priority page.last_modified r []
        (parse_url_path page.url))
    (.mk (String.mk
        (removeAll "/".toList (removeAll "https://".toList (removeAll "http://".toList
          url.toList))))
      url none none [])

/-- Resolve WHATWG dot-segments in a list of path segments: a `.` segment is
skipped, a `..` segment also pops the previous output segment, and a trailing
dot-segment leaves a trailing empty segment (a trailing slash). -/
def resolveDotSegs : List (List Char) → List (List Char) → List (List Char)
  | acc, [] => acc.reverse
  | acc, s :: rest =>
    if s = ['.'] then
      if rest = [] then ([] :: acc).reverse else resolveDotSegs acc rest
    else if s = ['.', '.'] then
      if rest = [] then ([] :: acc.tail).reverse else resolveDotSegs acc.tail rest
    else resolveDotSegs (s :: acc) rest

/-- Models the URL normalization pydantic v2's `HttpUrl` field validation
performs (in the pydantic dependency, outside this repository's sources) on
`scheme://authority/path` URLs, restricted to the fragment relevant here:
WHATWG dot-segment resolution in the path, and the `/` path for a URL with
none.  It is the identity on URLs whose path segments are nonempty and free
of dot-segments.  The full normalizer also rewrites other URLs
(percent-encoding, host case…), which this model leaves unchanged. -/
def pydanticUrlNorm (url : String) : String :=
  match afterScheme url.toList with
  | none => url
  | some rest =>
    let path := rest.dropWhile (· ≠ '/')
    let pre := url.toList.take (url.toList.length - path.length)
    match path with
    | [] => String.mk (pre ++ ['/'])
    | _ :: tail =>
      String.mk (pre ++ '/' :: joinSlash (resolveDotSegs [] (splitChar '/' tail)))

mutual
/-- Well-formedness of a subtree sitting at `path`: its URL is the normalized
one synthesized for its path, sibling names are distinct, and all children
(with good segment names) are recursively well-formed. -/
def goodAt (norm : String → String) (base : String) : List String → TreeNode → Prop
  | path, .mk _ u _ _ cs =>
      u = normUrlAt norm base path ∧ (cs.map TreeNode.name).Nodup ∧
        goodForest norm base path cs

def goodForest (norm : String → String) (base : String) :
    List String → List TreeNode → Prop
  | _, [] => True
  | path, c :: cs =>
      (goodSeg c.name ∧ goodAt norm base (path ++ [c.name]) c) ∧
        goodForest norm base path cs
end

mutual
/-- The root-relative segment paths of all nodes of a subtree, in `iter_nodes`
order (the subtree root contributes `[]`). -/
def nodePaths : TreeNode → List (List String)
  | .mk _ _ _ _ cs => [] :: forestPaths cs

def forestPaths : List TreeNode → List (List String)
  | [] => []
  | c :: cs => (nodePaths c).map (fun q => c.name :: q) ++ forestPaths cs
end

theorem goodAt_def (norm : String → String) (base : String) (path : List String)
    (t : TreeNode) :
    goodAt norm base path t ↔
      t.url = normUrlAt norm base path ∧ (t.children.map TreeNode.name).Nodup ∧
        goodForest norm base path t.children := by
  cases t
  exact Iff.rfl

theorem add_page_n_cons_found {norm : String → String} {base : String} {pp : Option Rat}
    {plm : Option Int} {root : TreeNode} {seg : String} {rest1 : List String} {c : TreeNode}
    (h : root.children.find? (fun c => c.name == seg) = some c) (done : List String) :
    add_page_to_tree_n norm base pp plm root done (seg :: rest1) =
      root.setChildren (replaceChild seg
        (add_page_to_tree_n norm base pp plm c (done ++ [seg]) rest1) root.children) := by
  simp only [add_page_to_tree_n, h]

theorem add_page_n_cons_new {norm : String → String} {base : String} {pp : Option Rat}
    {plm : Option Int} {root : TreeNode} {seg : String} {rest1 : List String}
    (h : root.children.find? (fun c => c.name == seg) = none) (done : List String) :
    add_page_to_tree_n norm base pp plm root done (seg :: rest1) =
      root.setChildren (root.children ++
        [add_page_to_tree_n norm base pp plm
          (.mk seg (norm (synth_url base (done ++ [seg]))) pp plm [])
          (done ++ [seg]) rest1]) := by
  simp only [add_page_to_tree_n, h]

/-- `add_page_to_tree_n` never changes the name of the node it starts from. -/
theorem add_page_n_name (norm : String → String) (base : String) (pp : Option Rat)
    (plm : Option Int) (root : TreeNode) (done rest : List String) :
    (add_page_to_tree_n norm base pp plm root done rest).name = root.name := by
  cases rest with
  | nil => rfl
  | cons seg rest1 =>
    cases hfind : root.children.find? (fun c => c.name == seg) with
    | some c => rw [add_page_n_cons_found hfind]; exact setChildren_name _ _
    | none => rw [add_page_n_cons_new hfind]; exact setChildren_name _ _

/-- With the identity normalization the explicit-normalization insertion is
exactly `add_page_to_tree`. -/
theorem add_page_to_tree_n_id (base : String) (pp : Option Rat) (plm : Option Int) :
    ∀ (rest : List String) (root : TreeNode) (done : List String),
      add_page_to_tree_n id base pp plm root done rest =
        add_page_to_tree base pp plm root done rest := by
  intro rest
  induction rest with
  | nil => intro root done; rfl
  | cons seg rest1 ih =>
    intro root done
    cases hfind : root.children.find? (fun c => c.name == seg) with
    | some c =>
      rw [add_page_n_cons_found hfind, add_page_cons_found hfind done, ih]
    | none =>
      rw [add_page_n_cons_new hfind, add_page_cons_new hfind done, ih]
      rfl

/-- With the identity normalization the explicit-normalization builder is
exactly `build_site_tree`. -/
theorem build_site_tree_n_id (url : String) (pages : List SitemapPage) :
    build_site_tree_n id url pages = build_site_tree url pages := by
  unfold build_site_tree_n build_site_tree
  congr 1
  funext r page
  exact add_page_to_tree_n_id url page.priority page.last_modified
    (parse_url_path page.url) r []

theorem splitChar_not_mem (c : Char) : ∀ l : List Char, ∀ g ∈ splitChar c l, c ∉ g := by
  intro l
  induction l with
  | nil =>
    intro g hg
    simp only [splitChar, List.mem_singleton] at hg
    simp [hg]
  | cons a rest ih =>
    intro g hg
    cases hsp : splitChar c rest with
    | nil =>
      simp only [splitChar, hsp, List.mem_singleton] at hg
      simp [hg]
    | cons g0 gs =>
      simp only [splitChar, hsp] at hg
      by_cases hac : a = c
      · rw [if_pos hac] at hg
        rcases List.mem_cons.mp hg with rfl | hg2
        · simp
        · exact ih g (by rw [hsp]; exact hg2)
      · rw [if_neg hac] at hg
        rcases List.mem_cons.mp hg with rfl | hg2
        · intro hmem
          rcases List.mem_cons.mp hmem with rfl | hmem2
          · exact hac rfl
          · exact ih g0 (by rw [hsp]; exact List.mem_cons_self _ _) hmem2
        · exact ih g (by rw [hsp]; exact List.mem_cons_of_mem _ hg2)

theorem parse_url_path_good (u : String) : ∀ s ∈ parse_url_path u, goodSeg s := by
  intro s hs
  unfold parse_url_path at hs
  obtain ⟨hmem, hne⟩ := List.mem_filter.mp hs
  obtain ⟨cs, hcs, rfl⟩ := List.mem_map.mp hmem
  refine ⟨?_, ?_⟩
  · intro hnil
    have : String.mk cs = "" := by
      have h2 : cs = [] := hnil
      rw [h2]
    simp [this] at hne
  · exact splitChar_not_mem '/' _ cs hcs

theorem joinSlash_ne_nil : ∀ (g : List Char) (gs : List (List Char)),
    g ≠ [] → joinSlash (g :: gs) ≠ [] := by
  intro g gs hg
  cases gs with
  | nil => exact hg
  | cons g2 r =>
    show g ++ '/' :: joinSlash (g2 :: r) ≠ []
    simp

theorem append_slash_inj : ∀ (g1 g2 x1 x2 : List Char), '/' ∉ g1 → '/' ∉ g2 →
    g1 ++ '/' :: x1 = g2 ++ '/' :: x2 → g1 = g2 ∧ x1 = x2 := by
  intro g1
  induction g1 with
  | nil =>
    intro g2 x1 x2 _ h2 h
    cases g2 with
    | nil =>
      simp only [List.nil_append, List.cons.injEq] at h
      exact ⟨rfl, h.2⟩
    | cons b g2t =>
      simp only [List.nil_append, List.cons_append, List.cons.injEq] at h
      exact absurd (by rw [h.1]; exact List.mem_cons_self _ _ : '/' ∈ b :: g2t) h2
  | cons a g1t ih =>
    intro g2 x1 x2 h1 h2 h
    cases g2 with
    | nil =>
      simp only [List.cons_append, List.nil_append, List.cons.injEq] at h
      exact absurd (by rw [← h.1]; exact List.mem_cons_self _ _ : '/' ∈ a :: g1t) h1
    | cons b g2t =>
      simp only [List.cons_append, List.cons.injEq] at h
      obtain ⟨rfl, hrest⟩ := h
      obtain ⟨hg, hx⟩ := ih g2t x1 x2 (fun hm => h1 (List.mem_cons_of_mem _ hm))
        (fun hm => h2 (List.mem_cons_of_mem _ hm)) hrest
      exact ⟨by rw [hg], hx⟩

theorem joinSlash_inj : ∀ p1 p2 : List (List Char),
    (∀ g ∈ p1, g ≠ [] ∧ '/' ∉ g) → (∀ g ∈ p2, g ≠ [] ∧ '/' ∉ g) →
    joinSlash p1 = joinSlash p2 → p1 = p2 := by
  intro p1
  induction p1 with
  | nil =>
    intro p2 _ hg2 h
    cases p2 with
    | nil => rfl
    | cons g2 gs2 =>
      exact absurd h.symm (joinSlash_ne_nil g2 gs2 (hg2 g2 (List.mem_cons_self _ _)).1)
  | cons g1 gs1 ih =>
    intro p2 hg1 hg2 h
    cases p2 with
    | nil =>
      exact absurd h (joinSlash_ne_nil g1 gs1 (hg1 g1 (List.mem_cons_self _ _)).1)
    | cons g2 gs2 =>
      cases gs1 with
      | nil =>
        cases gs2 with
        | nil =>
          show [g1] = [g2]
          rw [show joinSlash [g1] = g1 from rfl, show joinSlash [g2] = g2 from rfl] at h
          rw [h]
        | cons g2b gs2t =>
          rw [show joinSlash [g1] = g1 from rfl] at h
          have hslash : '/' ∈ g1 := by
            rw [h]
            show '/' ∈ g2 ++ '/' :: joinSlash (g2b :: gs2t)
            simp
          exact absurd hslash (hg1 g1 (List.mem_cons_self _ _)).2
      | cons g1b gs1t =>
        cases gs2 with
        | nil =>
          rw [show joinSlash [g2] = g2 from rfl] at h
          have hslash : '/' ∈ g2 := by
            rw [← h]
            show '/' ∈ g1 ++ '/' :: joinSlash (g1b :: gs1t)
            simp
          exact absurd hslash (hg2 g2 (List.mem_cons_self _ _)).2
        | cons g2b gs2t =>
          have h' : g1 ++ '/' :: joinSlash (g1b :: gs1t) =
              g2 ++ '/' :: joinSlash (g2b :: gs2t) := h
          obtain ⟨he, hj⟩ := append_slash_inj g1 g2 _ _
            (hg1 g1 (List.mem_cons_self _ _)).2 (hg2 g2 (List.mem_cons_self _ _)).2 h'
          have ht : g1b :: gs1t = g2b :: gs2t :=
            ih (g2b :: gs2t) (fun g hg => hg1 g (List.mem_cons_of_mem _ hg))
              (fun g hg => hg2 g (List.mem_cons_of_mem _ hg)) hj
          rw [he, ht]

theorem rstripSlash_decomp (s : List Char) :
    ∃ k, s = rstripSlash s ++ List.replicate k '/' := by
  refine ⟨(s.reverse.takeWhile (· = '/')).length, ?_⟩
  have hsplit := List.takeWhile_append_dropWhile (· = '/') s.reverse
  have htake : s.reverse.takeWhile (· = '/') =
      List.replicate (s.reverse.takeWhile (· = '/')).length '/' := by
    apply List.eq_replicate_of_mem
    intro b hb
    have := List.mem_takeWhile_imp hb
    simpa using this
  calc s = s.reverse.reverse := by rw [List.reverse_reverse]
    _ = (s.reverse.takeWhile (· = '/') ++ s.reverse.dropWhile (· = '/')).reverse := by
        rw [hsplit]
    _ = (s.reverse.dropWhile (· = '/')).reverse ++ (s.reverse.takeWhile (· = '/')).reverse := by
        rw [List.reverse_append]
    _ = rstripSlash s ++ (s.reverse.takeWhile (· = '/')).reverse := rfl
    _ = rstripSlash s ++ List.replicate (s.reverse.takeWhile (· = '/')).length '/' := by
        nth_rewrite 1 [htake]
        rw [List.reverse_replicate]

theorem mem_joinSlash_head (g : List Char) (gs : List (List Char)) (x : Char)
    (hx : x ∈ g) : x ∈ joinSlash (g :: gs) := by
  cases gs with
  | nil => exact hx
  | cons g2 r =>
    show x ∈ g ++ '/' :: joinSlash (g2 :: r)
    exact List.mem_append_left _ hx

/-- The homepage URL never collides with a synthesized child URL. -/
theorem base_ne_synth (base : String) (q : String) (qs : List String)
    (hgood : ∀ s ∈ q :: qs, goodSeg s) : base ≠ synth_url base (q :: qs) := by
  intro h
  obtain ⟨k, hk⟩ := rstripSlash_decomp base.toList
  have h2 : rstripSlash base.toList ++ List.replicate k '/' =
      rstripSlash base.toList ++ '/' :: joinSlash ((q :: qs).map String.toList) := by
    conv_lhs => rw [← hk, h]
    rfl
  have h3 := List.append_cancel_left h2
  cases k with
  | zero => simp at h3
  | succ k1 =>
    rw [List.replicate_succ] at h3
    have h4 : List.replicate k1 '/' = joinSlash ((q :: qs).map String.toList) := by
      have := List.cons.injEq '/' (List.replicate k1 '/') '/'
        (joinSlash ((q :: qs).map String.toList))
      rw [this] at h3
      exact h3.2
    have hq := hgood q (List.mem_cons_self _ _)
    obtain ⟨a, ha⟩ := List.exists_mem_of_ne_nil q.toList hq.1
    have hamem : a ∈ joinSlash ((q :: qs).map String.toList) :=
      mem_joinSlash_head q.toList _ a ha
    rw [← h4] at hamem
    have : a = '/' := List.eq_of_mem_replicate hamem
    exact hq.2 (this ▸ ha)

/-- Path-to-URL assignment is injective on good segment paths. -/
theorem urlAt_inj (base : String) (p1 p2 : List String)
    (h1 : ∀ s ∈ p1, goodSeg s) (h2 : ∀ s ∈ p2, goodSeg s)
    (h : urlAt base p1 = urlAt base p2) : p1 = p2 := by
  cases p1 with
  | nil =>
    cases p2 with
    | nil => rfl
    | cons q qs => exact absurd h (base_ne_synth base q qs h2)
  | cons q1 qs1 =>
    cases p2 with
    | nil => exact absurd h.symm (base_ne_synth base q1 qs1 h1)
    | cons q2 qs2 =>
      have h'' : rstripSlash base.toList ++ '/' :: joinSlash ((q1 :: qs1).map String.toList) =
          rstripSlash base.toList ++ '/' :: joinSlash ((q2 :: qs2).map String.toList) := by
        have hls : (synth_url base (q1 :: qs1)).toList =
            (synth_url base (q2 :: qs2)).toList := by
          rw [show urlAt base (q1 :: qs1) = synth_url base (q1 :: qs1) from rfl,
            show urlAt base (q2 :: qs2) = synth_url base (q2 :: qs2) from rfl] at h
          rw [h]
        exact hls
      have hj : joinSlash ((q1 :: qs1).map String.toList) =
          joinSlash ((q2 :: qs2).map String.toList) := by
        have := List.append_cancel_left h''
        simpa using this
      have hg1 : ∀ g ∈ (q1 :: qs1).map String.toList, g ≠ [] ∧ '/' ∉ g := by
        intro g hg
        obtain ⟨s, hsmem, rfl⟩ := List.mem_map.mp hg
        exact h1 s hsmem
      have hg2 : ∀ g ∈ (q2 :: qs2).map String.toList, g ≠ [] ∧ '/' ∉ g := by
        intro g hg
        obtain ⟨s, hsmem, rfl⟩ := List.mem_map.mp hg
        exact h2 s hsmem
      have hmap := joinSlash_inj _ _ hg1 hg2 hj
      have hinj : Function.Injective String.toList := fun a b hab => by
        cases a
        cases b
        exact congrArg String.mk hab
      exact List.map_injective_iff.mpr hinj hmap

mutual
/-- Under well-formedness, the traversal's URLs are exactly the path-indexed
URLs of the traversal's paths. -/
theorem iter_nodes_urls (norm : String → String) (base : String) :
    ∀ (t : TreeNode) (path : List String), goodAt norm base path t →
      (iter_nodes t).map TreeNode.url =
        (nodePaths t).map (fun q => normUrlAt norm base (path ++ q))
  | .mk n u p lm cs, path, h => by
    obtain ⟨hu, _, hf⟩ := h
    show u :: (iterForest cs).map TreeNode.url =
      normUrlAt norm base (path ++ []) :: (forestPaths cs).map (fun q => normUrlAt norm base (path ++ q))
    rw [List.append_nil, hu, iterForest_urls norm base cs path hf]

theorem iterForest_urls (norm : String → String) (base : String) :
    ∀ (cs : List TreeNode) (path : List String), goodForest norm base path cs →
      (iterForest cs).map TreeNode.url =
        (forestPaths cs).map (fun q => normUrlAt norm base (path ++ q))
  | [], _, _ => rfl
  | c :: cs, path, h => by
    obtain ⟨⟨_, hgood⟩, hrest⟩ := h
    show (iter_nodes c ++ iterForest cs).map TreeNode.url =
      ((nodePaths c).map (fun q => c.name :: q) ++ forestPaths cs).map
        (fun q => normUrlAt norm base (path ++ q))
    rw [List.map_append, List.map_append, iter_nodes_urls norm base c (path ++ [c.name]) hgood,
      iterForest_urls norm base cs path hrest, List.map_map]
    congr 1
    apply List.map_congr_left
    intro q _
    show normUrlAt norm base ((path ++ [c.name]) ++ q) =
      normUrlAt norm base (path ++ (c.name :: q))
    rw [List.append_assoc]
    rfl
end

mutual
/-- Under well-formedness, every traversal path consists of good segments. -/
theorem nodePaths_good (norm : String → String) (base : String) :
    ∀ (t : TreeNode) (path : List String), goodAt norm base path t →
      ∀ q ∈ nodePaths t, ∀ s ∈ q, goodSeg s
  | .mk n u p lm cs, path, h, q, hq, s, hs => by
    obtain ⟨_, _, hf⟩ := h
    rcases List.mem_cons.mp hq with rfl | hq2
    · exact absurd hs (List.not_mem_nil s)
    · exact forestPaths_good norm base cs path hf q hq2 s hs

theorem forestPaths_good (norm : String → String) (base : String) :
    ∀ (cs : List TreeNode) (path : List String), goodForest norm base path cs →
      ∀ q ∈ forestPaths cs, ∀ s ∈ q, goodSeg s
  | [], _, _, q, hq, _, _ => absurd hq (List.not_mem_nil q)
  | c :: cs, path, h, q, hq, s, hs => by
    obtain ⟨⟨hseg, hgood⟩, hrest⟩ := h
    rcases List.mem_append.mp hq with hq1 | hq2
    · obtain ⟨q0, hq0, rfl⟩ := List.mem_map.mp hq1
      rcases List.mem_cons.mp hs with rfl | hs2
      · exact hseg
      · exact nodePaths_good norm base c (path ++ [c.name]) hgood q0 hq0 s hs2
    · exact forestPaths_good norm base cs path hrest q hq2 s hs
end

theorem forestPaths_shape : ∀ (cs : List TreeNode) (q : List String),
    q ∈ forestPaths cs → ∃ c ∈ cs, ∃ q0, q = c.name :: q0 := by
  intro cs
  induction cs with
  | nil => intro q hq; exact absurd hq (List.not_mem_nil q)
  | cons c cs ih =>
    intro q hq
    rcases List.mem_append.mp hq with h1 | h2
    · obtain ⟨q0, _, rfl⟩ := List.mem_map.mp h1
      exact ⟨c, List.mem_cons_self _ _, q0, rfl⟩
    · obtain ⟨c', hc', q0, hq0⟩ := ih q h2
      exact ⟨c', List.mem_cons_of_mem _ hc', q0, hq0⟩

mutual
/-- Under well-formedness, the traversal's paths are pairwise distinct. -/
theorem nodePaths_nodup (norm : String → String) (base : String) :
    ∀ (t : TreeNode) (path : List String), goodAt norm base path t → (nodePaths t).Nodup
  | .mk n u p lm cs, path, h => by
    obtain ⟨_, hnames, hf⟩ := h
    show ([] :: forestPaths cs).Nodup
    refine List.nodup_cons.mpr ⟨?_, forestPaths_nodup norm base cs path hf hnames⟩
    intro hmem
    obtain ⟨c, _, q0, heq⟩ := forestPaths_shape cs [] hmem
    cases heq

theorem forestPaths_nodup (norm : String → String) (base : String) :
    ∀ (cs : List TreeNode) (path : List String), goodForest norm base path cs →
      (cs.map TreeNode.name).Nodup → (forestPaths cs).Nodup
  | [], _, _, _ => List.nodup_nil
  | c :: cs, path, h, hnames => by
    obtain ⟨⟨_, hgood⟩, hrest⟩ := h
    have hnames' := List.nodup_cons.mp hnames
    show ((nodePaths c).map (fun q => c.name :: q) ++ forestPaths cs).Nodup
    refine List.nodup_append.mpr ⟨?_, ?_, ?_⟩
    · exact (nodePaths_nodup norm base c (path ++ [c.name]) hgood).map
        (fun q1 q2 hq => by injection hq)
    · exact forestPaths_nodup norm base cs path hrest hnames'.2
    · intro q hq1 hq2
      obtain ⟨q0, _, rfl⟩ := List.mem_map.mp hq1
      obtain ⟨c', hc', q0', heq⟩ := forestPaths_shape cs _ hq2
      have hname : c.name = c'.name := by injection heq
      exact hnames'.1 (hname ▸ List.mem_map_of_mem TreeNode.name hc')
end

mutual
/-- Under well-formedness, every node of the traversal has pairwise-distinct
child names. -/
theorem childNodup_all (norm : String → String) (base : String) :
    ∀ (t : TreeNode) (path : List String), goodAt norm base path t →
      ∀ n2 ∈ iter_nodes t, ((n2.children).map TreeNode.name).Nodup
  | .mk n u p lm cs, path, h, n2, hn2 => by
    obtain ⟨_, hnames, hf⟩ := h
    rcases List.mem_cons.mp hn2 with rfl | hn2b
    · exact hnames
    · exact childNodup_forest norm base cs path hf n2 hn2b

theorem childNodup_forest (norm : String → String) (base : String) :
    ∀ (cs : List TreeNode) (path : List String), goodForest norm base path cs →
      ∀ n2 ∈ iterForest cs, ((n2.children).map TreeNode.name).Nodup
  | [], _, _, n2, hn2 => absurd hn2 (List.not_mem_nil n2)
  | c :: cs, path, h, n2, hn2 => by
    obtain ⟨⟨_, hgood⟩, hrest⟩ := h
    rcases List.mem_append.mp hn2 with h1 | h2
    · exact childNodup_all norm base c (path ++ [c.name]) hgood n2 h1
    · exact childNodup_forest norm base cs path hrest n2 h2
end

theorem goodForest_mem (norm : String → String) (base : String) :
    ∀ (cs : List TreeNode) (path : List String), goodForest norm base path cs →
      ∀ c ∈ cs, goodSeg c.name ∧ goodAt norm base (path ++ [c.name]) c := by
  intro cs
  induction cs with
  | nil => intro path _ c hc; exact absurd hc (List.not_mem_nil c)
  | cons c0 cs ih =>
    intro path h c hc
    rcases List.mem_cons.mp hc with rfl | hc2
    · exact h.1
    · exact ih path h.2 c hc2

theorem replaceChild_map_name {seg : String} {c1 : TreeNode} (hc1 : c1.name = seg) :
    ∀ cs : List TreeNode,
      (replaceChild seg c1 cs).map TreeNode.name = cs.map TreeNode.name := by
  intro cs
  induction cs with
  | nil => rfl
  | cons c0 cs ih =>
    simp only [replaceChild]
    by_cases h0 : c0.name = seg
    · rw [if_pos h0]
      simp only [List.map_cons]
      rw [hc1, h0]
    · rw [if_neg h0]
      simp only [List.map_cons, ih]

theorem goodForest_replaceChild (norm : String → String) (base : String) {seg : String} {c1 : TreeNode}
    (hc1 : c1.name = seg) :
    ∀ (cs : List TreeNode) (path : List String), goodForest norm base path cs →
      goodAt norm base (path ++ [seg]) c1 →
      goodForest norm base path (replaceChild seg c1 cs) := by
  intro cs
  induction cs with
  | nil => intro path h _; exact h
  | cons c0 cs ih =>
    intro path h hgood1
    obtain ⟨⟨hseg0, hgood0⟩, hrest⟩ := h
    simp only [replaceChild]
    by_cases h0 : c0.name = seg
    · rw [if_pos h0]
      rw [h0] at hseg0
      refine ⟨⟨?_, ?_⟩, hrest⟩
      · rw [hc1]
        exact hseg0
      · rw [hc1]
        exact hgood1
    · rw [if_neg h0]
      exact ⟨⟨hseg0, hgood0⟩, ih path hrest hgood1⟩

theorem goodForest_append (norm : String → String) (base : String) :
    ∀ (cs1 cs2 : List TreeNode) (path : List String),
      goodForest norm base path cs1 → goodForest norm base path cs2 →
      goodForest norm base path (cs1 ++ cs2) := by
  intro cs1
  induction cs1 with
  | nil => intro cs2 path _ h2; exact h2
  | cons c cs ih => intro cs2 path h1 h2; exact ⟨h1.1, ih cs2 path h1.2 h2⟩

/-- Inserting a record with good segments preserves well-formedness. -/
theorem goodAt_add_page (norm : String → String) (base : String) (pp : Option Rat)
    (plm : Option Int) :
    ∀ (rest : List String) (root : TreeNode) (path : List String),
      goodAt norm base path root → (∀ s ∈ rest, goodSeg s) →
      goodAt norm base path (add_page_to_tree_n norm base pp plm root path rest) := by
  intro rest
  induction rest with
  | nil => intro root path h _; exact h
  | cons seg rest1 ih =>
    intro root path h hsegs
    obtain ⟨hu, hnames, hf⟩ := (goodAt_def norm base path root).mp h
    cases hfind : root.children.find? (fun c => c.name == seg) with
    | some c =>
      have hcname : c.name = seg := by simpa using List.find?_some hfind
      have hcmem : c ∈ root.children := List.mem_of_find?_eq_some hfind
      have hcgood : goodAt norm base (path ++ [seg]) c := by
        have hmem := goodForest_mem norm base root.children path hf c hcmem
        rw [hcname] at hmem
        exact hmem.2
      have hc1good : goodAt norm base (path ++ [seg])
          (add_page_to_tree_n norm base pp plm c (path ++ [seg]) rest1) :=
        ih c (path ++ [seg]) hcgood (fun s hs => hsegs s (List.mem_cons_of_mem _ hs))
      have hc1name : (add_page_to_tree_n norm base pp plm c (path ++ [seg]) rest1).name = seg := by
        rw [add_page_n_name norm base pp plm c (path ++ [seg]) rest1, hcname]
      rw [add_page_n_cons_found hfind, goodAt_def]
      refine ⟨?_, ?_, ?_⟩
      · rw [setChildren_url, hu]
      · rw [setChildren_children, replaceChild_map_name hc1name]
        exact hnames
      · rw [setChildren_children]
        exact goodForest_replaceChild norm base hc1name root.children path hf hc1good
    | none =>
      have hnew : goodAt norm base (path ++ [seg])
          (TreeNode.mk seg (norm (synth_url base (path ++ [seg]))) pp plm []) := by
        rw [goodAt_def]
        refine ⟨?_, List.nodup_nil, trivial⟩
        show norm (synth_url base (path ++ [seg])) = normUrlAt norm base (path ++ [seg])
        cases path <;> rfl
      have hsegg : goodSeg seg := hsegs seg (List.mem_cons_self _ _)
      have hc1good := ih _ (path ++ [seg]) hnew
        (fun s hs => hsegs s (List.mem_cons_of_mem _ hs))
      have hc1name : (add_page_to_tree_n norm base pp plm
          (TreeNode.mk seg (norm (synth_url base (path ++ [seg]))) pp plm [])
          (path ++ [seg]) rest1).name = seg :=
        add_page_n_name norm base pp plm _ (path ++ [seg]) rest1
      rw [add_page_n_cons_new hfind, goodAt_def]
      refine ⟨?_, ?_, ?_⟩
      · rw [setChildren_url, hu]
      · rw [setChildren_children, List.map_append]
        simp only [List.map_cons, List.map_nil, hc1name]
        rw [List.nodup_append]
        refine ⟨hnames, List.nodup_singleton _, ?_⟩
        intro x hx1 hx2
        have hxseg : x = seg := List.mem_singleton.mp hx2
        obtain ⟨c0, hc0, hc0name⟩ := List.mem_map.mp hx1
        have hno := List.find?_eq_none.mp hfind c0 hc0
        rw [hc0name, hxseg] at hno
        simp at hno
      · rw [setChildren_children]
        refine goodForest_append norm base root.children _ path hf ⟨⟨?_, ?_⟩, trivial⟩
        · rw [hc1name]
          exact hsegg
        · rw [hc1name]
          exact hc1good

theorem build_good (norm : String → String) (url : String) (pages : List SitemapPage) :
    goodAt norm url [] (build_site_tree_n norm url pages) := by
  have hfold : ∀ (ps : List SitemapPage) (r : TreeNode), goodAt norm url [] r →
      goodAt norm url [] (ps.foldl
        (fun r page =>
          add_page_to_tree_n norm url page.priority page.last_modified r []
            (parse_url_path page.url)) r) := by
    intro ps
    induction ps with
    | nil => intro r h; exact h
    | cons p ps ih =>
      intro r h
      exact ih _ (goodAt_add_page norm url p.priority p.last_modified
        (parse_url_path p.url) r [] h (parse_url_path_good p.url))
  exact hfold pages _ ((goodAt_def _ _ _ _).mpr ⟨rfl, List.nodup_nil, trivial⟩)

/-- C8, counterexample: the pydantic `HttpUrl` validation applied when a node
is created resolves dot-segments, so the single well-formed sitemap record
`http://x.com/./a` makes `add_page_to_tree` create an intermediate node named
`"."` whose URL normalizes to the root's URL — two nodes of the built tree
share a URL, refuting tree-wide URL uniqueness as originally claimed. -/
theorem C8_counterexample :
    ((iter_nodes (build_site_tree_n pydanticUrlNorm "http://x.com/"
        [⟨"http://x.com/./a", none, none⟩])).map TreeNode.url) =
      ["http://x.com/", "http://x.com/", "http://x.com/a"] ∧
    ¬ ((iter_nodes (build_site_tree_n pydanticUrlNorm "http://x.com/"
        [⟨"http://x.com/./a", none, none⟩])).map TreeNode.url).Nodup := by
  decide

/-- C8, amended: for every homepage URL, page sequence and URL normalization,
the built tree has pairwise-distinct child names under every node; and its
node URLs are pairwise distinct whenever the normalization assigns distinct
URLs to distinct good segment paths — the raw synthesized URLs always are
distinct (injectivity of `urlAt`), but pydantic's normalizer can identify
some of them (dot-segments, as in the counterexample), which is exactly when
uniqueness fails. -/
theorem C8_structural_invariants (norm : String → String) (url : String)
    (pages : List SitemapPage) :
    (∀ n ∈ iter_nodes (build_site_tree_n norm url pages),
      ((n.children).map TreeNode.name).Nodup) ∧
    ((∀ p1 p2 : List String, (∀ s ∈ p1, goodSeg s) → (∀ s ∈ p2, goodSeg s) →
        normUrlAt norm url p1 = normUrlAt norm url p2 → p1 = p2) →
      ((iter_nodes (build_site_tree_n norm url pages)).map TreeNode.url).Nodup) := by
  have hg := build_good norm url pages
  constructor
  · exact childNodup_all norm url _ [] hg
  · intro hinj
    rw [iter_nodes_urls norm url _ [] hg]
    refine List.Nodup.map_on ?_ (nodePaths_nodup norm url _ [] hg)
    intro q1 hq1 q2 hq2 heq
    simp only [List.nil_append] at heq
    exact hinj q1 q2 (nodePaths_good norm url _ [] hg q1 hq1)
      (nodePaths_good norm url _ [] hg q2 hq2) heq

/-- C8, witness for the amended theorem: the identity normalization (exact
for these plain dot-free URLs) on a concrete one-record sitemap; the
injectivity hypothesis is discharged by `urlAt_inj`, and both invariants
evaluate on the resulting tree. -/
theorem C8_structural_invariants_witness :
    (∀ n ∈ iter_nodes (build_site_tree_n id "http://x.com/"
        [⟨"http://x.com/blog/a", none, none⟩]),
      ((n.children).map TreeNode.name).Nodup) ∧
    ((iter_nodes (build_site_tree_n id "http://x.com/"
        [⟨"http://x.com/blog/a", none, none⟩])).map TreeNode.url).Nodup ∧
    ((iter_nodes (build_site_tree_n id "http://x.com/"
        [⟨"http://x.com/blog/a", none, none⟩])).map TreeNode.url) =
      ["http://x.com/", "http://x.com/blog", "http://x.com/blog/a"] :=
  ⟨(C8_structural_invariants id "http://x.com/" [⟨"http://x.com/blog/a", none, none⟩]).1,
   (C8_structural_invariants id "http://x.com/" [⟨"http://x.com/blog/a", none, none⟩]).2
     (fun p1 p2 h1 h2 heq => urlAt_inj "http://x.com/" p1 p2 h1 h2 (by
       rw [normUrlAt_id "http://x.com/" p1, normUrlAt_id "http://x.com/" p2] at heq
       exact heq)),
   by decide⟩

end DioTree
